import Mathlib

/-!
Verification development for the snapshot-diff rewrite module
(`scripts/snap-diff/rewrite.js`).

The module exposes two entry points:

* `rewriteRolldown`: parse → tree rewrite (three rules) → generate →
  line filter;
* `rewriteEsbuild`: parse → generate (normalize-only).

The parser (acorn) and code generator (escodegen) are external
collaborators; they are modelled here over the ESTree fragment the
module manipulates (import declarations, expression statements with a
directive prologue, empty statements; identifier / string / number
literals, member accesses, calls).  The tree rewriter, the line filter
and the entry-point wiring are translated directly from the source.
-/

namespace SnapDiff

/-! ## Characters and tokens of the modelled grammar -/

/-- The single-quote character (written via its code point). -/
def squote : Char := Char.ofNat 39

def isSpaceChar (c : Char) : Bool :=
  c = ' ' || c = '\n' || c = '\t' || c = '\r'

def isIdentStart (c : Char) : Bool := c.isAlpha || c = '_'

def isIdentChar (c : Char) : Bool := c.isAlpha || c.isDigit || c = '_'

/-- Characters that terminate (or are forbidden inside) a string literal
of the modelled fragment: either quote, backslash, newline. -/
def isStrStop (c : Char) : Bool :=
  c = squote || c = '"' || c = '\\' || c = '\n'

inductive Token where
  | word (s : String)
  | strTok (s : String)
  | numTok (s : String)
  | dot
  | comma
  | lparen
  | rparen
  | lbracket
  | rbracket
  | semi
deriving DecidableEq, Repr

/-- A parse failure, as raised by the external parser. -/
structure ParseError where
  msg : String
deriving DecidableEq, Repr

/-! ## The ESTree fragment -/

inductive Lit where
  | str (value : String)
  | num (raw : String)
deriving DecidableEq, Repr

mutual
inductive Expr where
  | ident (name : String)
  | lit (value : Lit)
  | member (object : Expr) (property : Expr) (computed : Bool)
  | call (callee : Expr) (arguments : ExprList)
deriving DecidableEq, Repr
inductive ExprList where
  | nil
  | cons (head : Expr) (tail : ExprList)
deriving DecidableEq, Repr
end

/-- Statements of the fragment: `import <local> from <string>;`,
expression statements (carrying the acorn `directive` field), and the
empty statement. -/
inductive Stmt where
  | importDecl (localName : String) (source : String)
  | exprStmt (expression : Expr) (directive : Option String)
  | emptyStmt
deriving DecidableEq, Repr

abbrev Program := List Stmt

def ExprList.length : ExprList → Nat
  | .nil => 0
  | .cons _ t => t.length + 1

/-- Removal of one element at an index, the effect of JavaScript
`args.splice(i, 1)`. -/
def ExprList.eraseIdx : ExprList → Nat → ExprList
  | .nil, _ => .nil
  | .cons _ t, 0 => t
  | .cons h t, n + 1 => .cons h (t.eraseIdx n)

def ExprList.toList : ExprList → List Expr
  | .nil => []
  | .cons h t => h :: t.toList

/-! ## Modelled from the spec: the external Parser collaborator.

`acorn.parse(code, {ecmaVersion: 'latest', sourceType: 'module'})` is not
part of this repository; it is modelled here for the module fragment
above: a lexer, a recursive-descent parser, and the directive-prologue
marking acorn performs on expression statements. -/

def lexChars : Nat → List Char → Except ParseError (List Token)
  | 0, _ => .error ⟨"lexer: out of fuel"⟩
  | _ + 1, [] => .ok []
  | fuel + 1, c :: cs =>
    if isSpaceChar c then
      lexChars fuel cs
    else if c = '.' then (lexChars fuel cs).map (fun ts => Token.dot :: ts)
    else if c = ',' then (lexChars fuel cs).map (fun ts => Token.comma :: ts)
    else if c = '(' then (lexChars fuel cs).map (fun ts => Token.lparen :: ts)
    else if c = ')' then (lexChars fuel cs).map (fun ts => Token.rparen :: ts)
    else if c = '[' then (lexChars fuel cs).map (fun ts => Token.lbracket :: ts)
    else if c = ']' then (lexChars fuel cs).map (fun ts => Token.rbracket :: ts)
    else if c = ';' then (lexChars fuel cs).map (fun ts => Token.semi :: ts)
    else if isIdentStart c then
      (lexChars fuel (cs.dropWhile isIdentChar)).map
        (fun ts => Token.word (String.mk (c :: cs.takeWhile isIdentChar)) :: ts)
    else if c.isDigit then
      (lexChars fuel (cs.dropWhile Char.isDigit)).map
        (fun ts => Token.numTok (String.mk (c :: cs.takeWhile Char.isDigit)) :: ts)
    else if c = squote || c = '"' then
      if (cs.dropWhile (fun d => !isStrStop d)).head? = some c then
        (lexChars fuel (cs.dropWhile (fun d => !isStrStop d)).tail).map
          (fun ts => Token.strTok (String.mk (cs.takeWhile (fun d => !isStrStop d))) :: ts)
      else .error ⟨"lexer: bad string literal"⟩
    else .error ⟨"lexer: unexpected character"⟩

def lex (s : String) : Except ParseError (List Token) :=
  lexChars (s.data.length + 1) s.data

def parsePrimary : List Token → Except ParseError (Expr × List Token)
  | .word s :: rest =>
    if s = "import" then .error ⟨"parse: unexpected keyword"⟩
    else .ok (.ident s, rest)
  | .strTok s :: rest => .ok (.lit (.str s), rest)
  | .numTok s :: rest => .ok (.lit (.num s), rest)
  | _ => .error ⟨"parse: expected expression"⟩

mutual
def parseExpr : Nat → List Token → Except ParseError (Expr × List Token)
  | 0, _ => .error ⟨"parse: out of fuel"⟩
  | fuel + 1, toks => do
    let (base, rest) ← parsePrimary toks
    parseSuffixes fuel base rest

def parseSuffixes : Nat → Expr → List Token → Except ParseError (Expr × List Token)
  | 0, _, _ => .error ⟨"parse: out of fuel"⟩
  | fuel + 1, base, toks =>
    match toks with
    | .dot :: .word p :: rest =>
      if p = "import" then .error ⟨"parse: bad property name"⟩
      else parseSuffixes fuel (.member base (.ident p) false) rest
    | .lbracket :: rest => do
      let (idx, r1) ← parseExpr fuel rest
      match r1 with
      | .rbracket :: r2 => parseSuffixes fuel (.member base idx true) r2
      | _ => .error ⟨"parse: expected closing bracket"⟩
    | .lparen :: rest => do
      let (args, r1) ← parseArgs fuel rest
      match r1 with
      | .rparen :: r2 => parseSuffixes fuel (.call base args) r2
      | _ => .error ⟨"parse: expected closing paren"⟩
    | _ => .ok (base, toks)

def parseArgs : Nat → List Token → Except ParseError (ExprList × List Token)
  | 0, _ => .error ⟨"parse: out of fuel"⟩
  | fuel + 1, toks =>
    match toks with
    | .rparen :: _ => .ok (.nil, toks)
    | _ => do
      let (e, r) ← parseExpr fuel toks
      parseArgsMore fuel e r

def parseArgsMore : Nat → Expr → List Token → Except ParseError (ExprList × List Token)
  | 0, _, _ => .error ⟨"parse: out of fuel"⟩
  | fuel + 1, e, toks =>
    match toks with
    | .comma :: rest => do
      let (e2, r) ← parseExpr fuel rest
      let (es, r2) ← parseArgsMore fuel e2 r
      .ok (.cons e es, r2)
    | _ => .ok (.cons e .nil, toks)
end

def parseExprStmt (fuel : Nat) (toks : List Token) :
    Except ParseError (Stmt × List Token) := do
  let (e, r) ← parseExpr fuel toks
  match r with
  | .semi :: r2 => .ok (.exprStmt e none, r2)
  | _ => .error ⟨"parse: expected semicolon"⟩

def parseImportTail : List Token → Except ParseError (Stmt × List Token)
  | .word l :: .word frm :: .strTok src :: .semi :: rest2 =>
    if l = "import" then .error ⟨"parse: bad import"⟩
    else if frm = "from" then .ok (.importDecl l src, rest2)
    else .error ⟨"parse: bad import"⟩
  | _ => .error ⟨"parse: bad import"⟩

def parseStmt (fuel : Nat) (toks : List Token) :
    Except ParseError (Stmt × List Token) :=
  match toks with
  | .semi :: rest => .ok (.emptyStmt, rest)
  | .word s :: rest =>
    if s = "import" then parseImportTail rest
    else parseExprStmt fuel (.word s :: rest)
  | _ => parseExprStmt fuel toks

def parseProgramAux : Nat → List Token → Except ParseError (List Stmt)
  | 0, _ => .error ⟨"parse: out of fuel"⟩
  | _ + 1, [] => .ok []
  | fuel + 1, toks => do
    let (s, r) ← parseStmt fuel toks
    (parseProgramAux fuel r).map (fun ss => s :: ss)

/-- Directive marking on one statement: the parser attaches to a
string-literal expression statement its directive value. -/
def markDirective : Stmt → Stmt
  | .exprStmt (.lit (.str s)) _ => .exprStmt (.lit (.str s)) (some s)
  | s => s

/-- Modelled from the spec: the `directive` field of expression
statements.  The spec's end-to-end example treats the string-literal
statement `"use strict";` following an import as carrying the directive
value `use strict`, so the model marks every string-literal expression
statement with its directive value. -/
def markDirectives (stmts : List Stmt) : List Stmt :=
  stmts.map markDirective

/-- Modelled from the spec: the Parser collaborator contract
`parse(text, {grammarVersion: latest, sourceType: module}) → Tree`,
failing (propagating) on syntax errors. -/
def acornParse (code : String) : Except ParseError Program := do
  let toks ← lex code
  let raw ← parseProgramAux (3 * toks.length + 5) toks
  return markDirectives raw

/-! ## Line splitting and joining (JavaScript `split`/`join` on newline) -/

def splitLinesAux : List Char → List Char → List String
  | acc, [] => [String.mk acc.reverse]
  | acc, c :: cs =>
    if c = '\n' then String.mk acc.reverse :: splitLinesAux [] cs
    else splitLinesAux (c :: acc) cs

/-- Models JavaScript `s.split('\n')`. -/
def splitLines (s : String) : List String := splitLinesAux [] s.data

/-- Models JavaScript `lines.join('\n')`. -/
def joinLines : List String → String
  | [] => ""
  | [l] => l
  | l :: l2 :: ls => l ++ "\n" ++ joinLines (l2 :: ls)

/-! ## Modelled from the spec: the external Code Generator collaborator.

`escodegen.generate(ast, {})` is not part of this repository; it is
modelled here on the fragment, with escodegen's defaults: single-quoted
strings, `, `-separated argument lists, one statement per line, a lone
`;` for an empty statement. -/

def litChars : Lit → List Char
  | .str s => squote :: (s.data ++ [squote])
  | .num raw => raw.data

mutual
def exprChars : Expr → List Char
  | .ident n => n.data
  | .lit v => litChars v
  | .member o p computed =>
    if computed then exprChars o ++ '[' :: (exprChars p ++ [']'])
    else exprChars o ++ '.' :: exprChars p
  | .call callee args => exprChars callee ++ '(' :: (argsChars args ++ [')'])
def argsChars : ExprList → List Char
  | .nil => []
  | .cons e .nil => exprChars e
  | .cons e (.cons e2 t) => exprChars e ++ ',' :: ' ' :: argsChars (.cons e2 t)
end

def stmtChars : Stmt → List Char
  | .importDecl l src =>
    ("import ").data ++ l.data ++ (" from ").data ++
      squote :: (src.data ++ [squote, ';'])
  | .exprStmt e _ => exprChars e ++ [';']
  | .emptyStmt => [';']

/-- Modelled from the spec: the Code Generator collaborator contract
`generate(Tree, options) → text`, deterministic, default options. -/
def generate (p : Program) : String :=
  joinLines (p.map (fun s => String.mk (stmtChars s)))

/-! ## The Tree Rewriter (translated from `rewriteRolldown`'s walk) -/

def assertProperties : List String := ["equal", "strictEqual", "deepEqual"]

def importSourceList : List String := ["assert", "node:assert"]

/-- The JavaScript optional read `node?.name`: the `name` field is
present exactly on identifier nodes. -/
def exprName? : Expr → Option String
  | .ident n => some n
  | _ => none

/-- The JavaScript write `node.name = s` (a no-op on nodes without the
field; under the rule's guard the node is an identifier). -/
def setName (s : String) : Expr → Expr
  | .ident _ => .ident s
  | e => e

/-- The `CallExpression(node)` rule: rewrite `assert.equal(a, b)`,
`assert.strictEqual(a, b)`, `assert.deepEqual(a, b)` to `console.log(a)`;
leave every other call unchanged. -/
def callExpressionRule (node : Expr) : Expr :=
  match node with
  | .call callee args =>
    match callee with
    | .member obj prop computed =>
      if (exprName? obj == some "assert")
          && (exprName? prop).any (fun n => assertProperties.contains n) then
        if args.length == 2 then
          .call (.member (setName "console" obj) (setName "log" prop) computed)
            (args.eraseIdx 1)
        else node
      else node
    | _ => node
  | _ => node

/-- The `ImportDeclaration(node)` rule: an import from `assert` or
`node:assert` is downgraded to an empty statement. -/
def importDeclarationRule (node : Stmt) : Stmt :=
  match node with
  | .importDecl _ src =>
    if importSourceList.contains src then .emptyStmt else node
  | _ => node

/-- The `ExpressionStatement(node)` rule: a statement whose directive is
the string `use strict` is downgraded to an empty statement. -/
def expressionStatementRule (node : Stmt) : Stmt :=
  match node with
  | .exprStmt _ dir => if dir = some "use strict" then .emptyStmt else node
  | _ => node

mutual
/-- The `walk.simple` traversal on expressions: children first (for a
non-computed member access the base walker skips the property), then the
`CallExpression` callback on call nodes. -/
def walkExpr : Expr → Expr
  | .ident n => .ident n
  | .lit v => .lit v
  | .member o p computed =>
    .member (walkExpr o) (if computed then walkExpr p else p) computed
  | .call callee args =>
    callExpressionRule (.call (walkExpr callee) (walkExprList args))
def walkExprList : ExprList → ExprList
  | .nil => .nil
  | .cons e t => .cons (walkExpr e) (walkExprList t)
end

def walkStmt : Stmt → Stmt
  | .importDecl l src => importDeclarationRule (.importDecl l src)
  | .exprStmt e dir => expressionStatementRule (.exprStmt (walkExpr e) dir)
  | .emptyStmt => .emptyStmt

/-- The full `walk.simple(ast, {ImportDeclaration, ExpressionStatement,
CallExpression})` pass over a program. -/
def walkProgram (p : Program) : Program := p.map walkStmt

/-! ## Entry points (translated from the source) -/

/-- The Output Normalizer:
`generated.split('\n').filter(line => line !== ';').join('\n')`. -/
def normalizeGenerated (generated : String) : String :=
  joinLines ((splitLines generated).filter (fun line => line ≠ ";"))

/-- `rewriteRolldown(code)`: parse, walk with the three rules, generate,
then drop every generated line that is exactly `;`. -/
def rewriteRolldown (code : String) : Except ParseError String := do
  let ast ← acornParse code
  let rewritten := walkProgram ast
  let generated := generate rewritten
  return normalizeGenerated generated

/-- `rewriteEsbuild(code)`: parse, then generate with no rewriting. -/
def rewriteEsbuild (code : String) : Except ParseError String := do
  let ast ← acornParse code
  return generate ast

/-! ## Well-formedness of trees (the image of the parser) -/

/-- JavaScript `line.trim()` at the character-list level (used to state
the spec's description of the line filter). -/
def trimChars (l : List Char) : List Char :=
  ((l.dropWhile isSpaceChar).reverse.dropWhile isSpaceChar).reverse

def wfWordChars : List Char → Bool
  | [] => false
  | c :: cs => isIdentStart c && cs.all isIdentChar

/-- A word as the lexer produces it. -/
def wfWord (s : String) : Bool := wfWordChars s.data

/-- An identifier as the parser accepts it. -/
def wfIdent (s : String) : Bool := wfWord s && !(s == "import")

def wfStrLit (s : String) : Bool := s.data.all (fun c => !isStrStop c)

def wfNumChars : List Char → Bool
  | [] => false
  | c :: cs => c.isDigit && cs.all Char.isDigit

def wfNum (s : String) : Bool := wfNumChars s.data

def wfLit : Lit → Bool
  | .str s => wfStrLit s
  | .num r => wfNum r

def isIdentExpr : Expr → Bool
  | .ident _ => true
  | _ => false

mutual
def wfExpr : Expr → Bool
  | .ident n => wfIdent n
  | .lit v => wfLit v
  | .member o p computed =>
    wfExpr o && wfExpr p && (computed || isIdentExpr p)
  | .call f args => wfExpr f && wfArgs args
def wfArgs : ExprList → Bool
  | .nil => true
  | .cons e t => wfExpr e && wfArgs t
end

/-- The string-literal value of an expression, when it has one. -/
def strLitVal? : Expr → Option String
  | .lit (.str v) => some v
  | _ => none

/-- Consistency of the `directive` field with the statement's
expression, as the modelled parser establishes it. -/
def dirOK (e : Expr) (d : Option String) : Bool := d == strLitVal? e

def wfStmt : Stmt → Bool
  | .importDecl l src => wfIdent l && wfStrLit src
  | .exprStmt e d => wfExpr e && dirOK e d
  | .emptyStmt => true

def wfProgram (p : Program) : Bool := p.all wfStmt

/-! ## Token sequences of generated text -/

def litTok : Lit → Token
  | .str s => .strTok s
  | .num r => .numTok r

mutual
def exprToks : Expr → List Token
  | .ident n => [.word n]
  | .lit v => [litTok v]
  | .member o p computed =>
    if computed then exprToks o ++ .lbracket :: (exprToks p ++ [.rbracket])
    else exprToks o ++ .dot :: exprToks p
  | .call f args => exprToks f ++ .lparen :: (argsToks args ++ [.rparen])
def argsToks : ExprList → List Token
  | .nil => []
  | .cons e .nil => exprToks e
  | .cons e (.cons e2 t) => exprToks e ++ .comma :: argsToks (.cons e2 t)
end

def stmtToks : Stmt → List Token
  | .importDecl l src => [.word "import", .word l, .word "from", .strTok src, .semi]
  | .exprStmt e _ => exprToks e ++ [.semi]
  | .emptyStmt => [.semi]

def progToks (p : List Stmt) : List Token := (p.map stmtToks).flatten

/-! ## Left-spine view of expressions -/

inductive Suffix where
  | dotS (name : String)
  | brackS (index : Expr)
  | callS (args : ExprList)

def applySuffix (base : Expr) : Suffix → Expr
  | .dotS n => .member base (.ident n) false
  | .brackS e => .member base e true
  | .callS args => .call base args

def applySuffixes (base : Expr) (ss : List Suffix) : Expr :=
  ss.foldl applySuffix base

def propName : Expr → String
  | .ident n => n
  | _ => ""

def headExpr : Expr → Expr
  | .member o _ _ => headExpr o
  | .call f _ => headExpr f
  | e => e

def suffixesOf : Expr → List Suffix
  | .member o p computed =>
    suffixesOf o ++ [if computed then Suffix.brackS p else Suffix.dotS (propName p)]
  | .call f args => suffixesOf f ++ [Suffix.callS args]
  | _ => []

def suffixToks : Suffix → List Token
  | .dotS n => [.dot, .word n]
  | .brackS e => .lbracket :: (exprToks e ++ [.rbracket])
  | .callS args => .lparen :: (argsToks args ++ [.rparen])

def wfSuffix : Suffix → Bool
  | .dotS n => wfIdent n
  | .brackS e => wfExpr e
  | .callS args => wfArgs args

def isPrim : Expr → Bool
  | .ident _ => true
  | .lit _ => true
  | _ => false

/-- Tokens on which `parseSuffixes` stops extending the expression. -/
def stopTok : List Token → Bool
  | .dot :: _ => false
  | .lbracket :: _ => false
  | .lparen :: _ => false
  | _ => true

/-! ## Generic list helpers -/

theorem takeWhile_app_all {α : Type} {p : α → Bool} :
    ∀ (l₁ l₂ : List α), (∀ c ∈ l₁, p c) →
      (l₁ ++ l₂).takeWhile p = l₁ ++ l₂.takeWhile p := by
  intro l₁ l₂ h
  induction l₁ with
  | nil => simp
  | cons c cs ih => simp_all [List.takeWhile_cons]

theorem dropWhile_app_all {α : Type} {p : α → Bool} :
    ∀ (l₁ l₂ : List α), (∀ c ∈ l₁, p c) →
      (l₁ ++ l₂).dropWhile p = l₂.dropWhile p := by
  intro l₁ l₂ h
  induction l₁ with
  | nil => simp
  | cons c cs ih => simp_all [List.dropWhile_cons]

theorem dropWhile_len_le {α : Type} (p : α → Bool) :
    ∀ l : List α, (l.dropWhile p).length ≤ l.length := by
  intro l
  induction l with
  | nil => simp
  | cons c cs ih =>
    rw [List.dropWhile_cons]
    by_cases h : p c
    · simp only [h, if_true]
      exact le_trans ih (by simp)
    · simp [h]

/-! ## Splitting and joining lines -/

theorem splitLinesAux_no_nl :
    ∀ (d : List Char) (acc : List Char), (∀ c ∈ d, c ≠ '\n') →
      splitLinesAux acc d = [String.mk (acc.reverse ++ d)] := by
  intro d
  induction d with
  | nil => intro acc _; simp [splitLinesAux]
  | cons c cs ih =>
    intro acc h
    have hc : c ≠ '\n' := h c (by simp)
    simp only [splitLinesAux, if_neg hc]
    rw [ih (c :: acc) (fun x hx => h x (by simp [hx]))]
    simp

theorem splitLinesAux_nl :
    ∀ (d : List Char) (acc rest : List Char), (∀ c ∈ d, c ≠ '\n') →
      splitLinesAux acc (d ++ '\n' :: rest) =
        String.mk (acc.reverse ++ d) :: splitLinesAux [] rest := by
  intro d
  induction d with
  | nil => intro acc rest _; simp [splitLinesAux]
  | cons c cs ih =>
    intro acc rest h
    have hc : c ≠ '\n' := h c (by simp)
    simp only [List.cons_append, List.append_eq, splitLinesAux, if_neg hc]
    rw [ih (c :: acc) rest (fun x hx => h x (by simp [hx]))]
    simp

/-- Splitting a newline-joined list of newline-free lines recovers the
lines. -/
theorem splitLines_joinLines :
    ∀ ls : List String, ls ≠ [] → (∀ l ∈ ls, ∀ c ∈ l.data, c ≠ '\n') →
      splitLines (joinLines ls) = ls := by
  intro ls
  induction ls with
  | nil => intro h; exact absurd rfl h
  | cons l ls ih =>
    intro _ h
    match ls with
    | [] =>
      simp only [joinLines, splitLines]
      rw [splitLinesAux_no_nl l.data [] (h l (by simp))]
      simp
    | l2 :: ls2 =>
      simp only [joinLines, splitLines, String.data_append]
      rw [List.append_assoc, List.singleton_append]
      rw [splitLinesAux_nl l.data [] _ (h l (by simp))]
      simp only [List.reverse_nil, List.nil_append]
      have := ih (by simp) (fun x hx => h x (by simp [hx]))
      simp only [splitLines] at this
      rw [this]

/-! ## Lexer lemmas -/

/-- The lexer run with always-sufficient fuel. -/
def lexAll (cs : List Char) : Except ParseError (List Token) :=
  lexChars (cs.length + 1) cs

/-- One-step unfolding of the lexer on a nonempty input. -/
theorem lexChars_succ (f : Nat) (c : Char) (cs : List Char) :
    lexChars (f + 1) (c :: cs) =
      (if isSpaceChar c then
        lexChars f cs
      else if c = '.' then (lexChars f cs).map (fun ts => Token.dot :: ts)
      else if c = ',' then (lexChars f cs).map (fun ts => Token.comma :: ts)
      else if c = '(' then (lexChars f cs).map (fun ts => Token.lparen :: ts)
      else if c = ')' then (lexChars f cs).map (fun ts => Token.rparen :: ts)
      else if c = '[' then (lexChars f cs).map (fun ts => Token.lbracket :: ts)
      else if c = ']' then (lexChars f cs).map (fun ts => Token.rbracket :: ts)
      else if c = ';' then (lexChars f cs).map (fun ts => Token.semi :: ts)
      else if isIdentStart c then
        (lexChars f (cs.dropWhile isIdentChar)).map
          (fun ts => Token.word (String.mk (c :: cs.takeWhile isIdentChar)) :: ts)
      else if c.isDigit then
        (lexChars f (cs.dropWhile Char.isDigit)).map
          (fun ts => Token.numTok (String.mk (c :: cs.takeWhile Char.isDigit)) :: ts)
      else if c = squote || c = '"' then
        if (cs.dropWhile (fun d => !isStrStop d)).head? = some c then
          (lexChars f (cs.dropWhile (fun d => !isStrStop d)).tail).map
            (fun ts => Token.strTok (String.mk (cs.takeWhile (fun d => !isStrStop d))) :: ts)
        else .error ⟨"lexer: bad string literal"⟩
      else .error ⟨"lexer: unexpected character"⟩) := rfl

set_option maxHeartbeats 2000000 in
theorem lexChars_mono :
    ∀ (n : Nat) (cs : List Char), cs.length ≤ n →
      ∀ f g, cs.length < f → cs.length < g → lexChars f cs = lexChars g cs := by
  intro n
  induction n with
  | zero =>
    intro cs hcs f g hf hg
    cases cs with
    | cons c cs => simp at hcs
    | nil =>
      cases f with
      | zero => omega
      | succ f =>
        cases g with
        | zero => omega
        | succ g => rfl
  | succ n ih =>
    intro cs hcs f g hf hg
    cases cs with
    | nil =>
      cases f with
      | zero => omega
      | succ f =>
        cases g with
        | zero => omega
        | succ g => rfl
    | cons c cs =>
      cases f with
      | zero => omega
      | succ f =>
        cases g with
        | zero => omega
        | succ g =>
          have hcs' : cs.length ≤ n := by simp at hcs; omega
          have hf' : cs.length < f := by simp at hf; omega
          have hg' : cs.length < g := by simp at hg; omega
          have hdw : ∀ p : Char → Bool, (cs.dropWhile p).length ≤ cs.length :=
            fun p => dropWhile_len_le p cs
          have ihcs := ih cs hcs' f g hf' hg'
          have ihdw : ∀ p : Char → Bool,
              lexChars f (cs.dropWhile p) = lexChars g (cs.dropWhile p) :=
            fun p => ih (cs.dropWhile p) (le_trans (hdw _) hcs') f g
              (lt_of_le_of_lt (hdw _) hf') (lt_of_le_of_lt (hdw _) hg')
          rw [lexChars_succ f, lexChars_succ g]
          by_cases h1 : isSpaceChar c = true
          · rw [if_pos h1, if_pos h1, ihcs]
          rw [if_neg h1, if_neg h1]
          by_cases h2 : c = '.'
          · rw [if_pos h2, if_pos h2, ihcs]
          rw [if_neg h2, if_neg h2]
          by_cases h3 : c = ','
          · rw [if_pos h3, if_pos h3, ihcs]
          rw [if_neg h3, if_neg h3]
          by_cases h4 : c = '('
          · rw [if_pos h4, if_pos h4, ihcs]
          rw [if_neg h4, if_neg h4]
          by_cases h5 : c = ')'
          · rw [if_pos h5, if_pos h5, ihcs]
          rw [if_neg h5, if_neg h5]
          by_cases h6 : c = '['
          · rw [if_pos h6, if_pos h6, ihcs]
          rw [if_neg h6, if_neg h6]
          by_cases h7 : c = ']'
          · rw [if_pos h7, if_pos h7, ihcs]
          rw [if_neg h7, if_neg h7]
          by_cases h8 : c = ';'
          · rw [if_pos h8, if_pos h8, ihcs]
          rw [if_neg h8, if_neg h8]
          by_cases h9 : isIdentStart c = true
          · rw [if_pos h9, if_pos h9, ihdw]
          rw [if_neg h9, if_neg h9]
          by_cases h10 : c.isDigit = true
          · rw [if_pos h10, if_pos h10, ihdw]
          rw [if_neg h10, if_neg h10]
          by_cases h11 : (c = squote || c = '"') = true
          · rw [if_pos h11, if_pos h11]
            by_cases h12 : (cs.dropWhile (fun d => !isStrStop d)).head? = some c
            · have htl : (cs.dropWhile (fun d => !isStrStop d)).tail.length ≤ cs.length :=
                le_trans (List.length_tail _ ▸ Nat.sub_le _ _) (hdw _)
              rw [if_pos h12, if_pos h12,
                ih (cs.dropWhile (fun d => !isStrStop d)).tail (le_trans htl hcs') f g
                  (lt_of_le_of_lt htl hf') (lt_of_le_of_lt htl hg')]
            · rw [if_neg h12, if_neg h12]
          · rw [if_neg h11, if_neg h11]

theorem lexChars_eq_lexAll {f : Nat} {cs : List Char} (h : cs.length < f) :
    lexChars f cs = lexAll cs :=
  lexChars_mono cs.length cs le_rfl f (cs.length + 1) h (by omega)

theorem lex_eq_lexAll (s : String) : lex s = lexAll s.data := rfl

/-! ### Character-class facts -/

theorem ne_of_pred {p : Char → Bool} {c x : Char}
    (h : p c = true) (hx : p x = false) : ¬(c = x) := by
  intro he
  subst he
  rw [h] at hx
  cases hx

theorem space_chars {c : Char} (h : isSpaceChar c = true) :
    c = ' ' ∨ c = '\n' ∨ c = '\t' ∨ c = '\r' := by
  simp only [isSpaceChar, Bool.or_eq_true, decide_eq_true_eq] at h
  tauto

theorem identStart_not_space {c : Char} (h : isIdentStart c = true) :
    ¬(isSpaceChar c = true) := by
  intro hs
  rcases space_chars hs with h1 | h1 | h1 | h1 <;>
    (subst h1; exact absurd h (by decide))

theorem digit_not_space {c : Char} (h : c.isDigit = true) :
    ¬(isSpaceChar c = true) := by
  intro hs
  rcases space_chars hs with h1 | h1 | h1 | h1 <;>
    (subst h1; exact absurd h (by decide))

theorem digit_not_identStart {c : Char} (h : c.isDigit = true) :
    isIdentStart c = false := by
  simp only [Char.isDigit, Bool.and_eq_true, decide_eq_true_eq] at h
  have h2 : c.val.toNat ≤ (57 : UInt32).toNat := h.2
  have e2 : (57 : UInt32).toNat = 57 := rfl
  rw [e2] at h2
  cases hb : isIdentStart c with
  | false => rfl
  | true =>
    exfalso
    simp only [isIdentStart, Bool.or_eq_true, Char.isAlpha, Char.isLower, Char.isUpper,
      Bool.and_eq_true, decide_eq_true_eq] at hb
    rcases hb with (⟨hl, _⟩ | ⟨hl, _⟩) | hu
    · have h3 : (65 : UInt32).toNat ≤ c.val.toNat := hl
      have e3 : (65 : UInt32).toNat = 65 := rfl
      rw [e3] at h3
      omega
    · have h3 : (97 : UInt32).toNat ≤ c.val.toNat := hl
      have e3 : (97 : UInt32).toNat = 97 := rfl
      rw [e3] at h3
      omega
    · subst hu
      exact absurd h2 (by decide)

/-! ### One-step lexer evaluations -/

theorem lexAll_blank (rest : List Char) : lexAll (' ' :: rest) = lexAll rest := rfl

theorem lexAll_nl (rest : List Char) : lexAll ('\n' :: rest) = lexAll rest := rfl

theorem lexAll_dot (rest : List Char) :
    lexAll ('.' :: rest) = (lexAll rest).map (fun ts => Token.dot :: ts) := rfl

theorem lexAll_comma (rest : List Char) :
    lexAll (',' :: rest) = (lexAll rest).map (fun ts => Token.comma :: ts) := rfl

theorem lexAll_lparen (rest : List Char) :
    lexAll ('(' :: rest) = (lexAll rest).map (fun ts => Token.lparen :: ts) := rfl

theorem lexAll_rparen (rest : List Char) :
    lexAll (')' :: rest) = (lexAll rest).map (fun ts => Token.rparen :: ts) := rfl

theorem lexAll_lbracket (rest : List Char) :
    lexAll ('[' :: rest) = (lexAll rest).map (fun ts => Token.lbracket :: ts) := rfl

theorem lexAll_rbracket (rest : List Char) :
    lexAll (']' :: rest) = (lexAll rest).map (fun ts => Token.rbracket :: ts) := rfl

theorem lexAll_semi (rest : List Char) :
    lexAll (';' :: rest) = (lexAll rest).map (fun ts => Token.semi :: ts) := rfl

/-- The characters following a lexed chunk must not extend an identifier
or number token. -/
def headNotIdent : List Char → Prop
  | [] => True
  | c :: _ => isIdentChar c = false

theorem lexAll_word (c : Char) (w rest : List Char)
    (hc : isIdentStart c = true) (hw : ∀ x ∈ w, isIdentChar x = true)
    (hrest : headNotIdent rest) :
    lexAll (c :: (w ++ rest)) =
      (lexAll rest).map (fun ts => Token.word (String.mk (c :: w)) :: ts) := by
  have htw : (w ++ rest).takeWhile isIdentChar = w := by
    rw [takeWhile_app_all w rest hw]
    cases rest with
    | nil => simp
    | cons r rs =>
      simp only [headNotIdent] at hrest
      simp [List.takeWhile_cons, hrest]
  have hdw : (w ++ rest).dropWhile isIdentChar = rest := by
    rw [dropWhile_app_all w rest hw]
    cases rest with
    | nil => simp
    | cons r rs =>
      simp only [headNotIdent] at hrest
      simp [List.dropWhile_cons, hrest]
  show lexChars ((c :: (w ++ rest)).length + 1) (c :: (w ++ rest)) = _
  rw [show (c :: (w ++ rest)).length + 1 = ((w ++ rest).length + 1) + 1 by simp]
  rw [lexChars_succ]
  rw [if_neg (identStart_not_space hc)]
  rw [if_neg (ne_of_pred hc (by decide))]
  rw [if_neg (ne_of_pred hc (by decide))]
  rw [if_neg (ne_of_pred hc (by decide))]
  rw [if_neg (ne_of_pred hc (by decide))]
  rw [if_neg (ne_of_pred hc (by decide))]
  rw [if_neg (ne_of_pred hc (by decide))]
  rw [if_neg (ne_of_pred hc (by decide))]
  rw [if_pos hc, htw, hdw]
  rw [lexChars_eq_lexAll (by simp; omega)]

theorem lexAll_num (c : Char) (w rest : List Char)
    (hc : c.isDigit = true) (hw : ∀ x ∈ w, x.isDigit = true)
    (hrest : headNotIdent rest) :
    lexAll (c :: (w ++ rest)) =
      (lexAll rest).map (fun ts => Token.numTok (String.mk (c :: w)) :: ts) := by
  have hrest' : match rest with | [] => True | r :: _ => r.isDigit = false := by
    cases rest with
    | nil => trivial
    | cons r rs =>
      simp only [headNotIdent] at hrest
      cases hd : r.isDigit with
      | false => trivial
      | true =>
        exfalso
        have : isIdentChar r = true := by
          simp [isIdentChar, hd]
        rw [this] at hrest
        cases hrest
  have htw : (w ++ rest).takeWhile Char.isDigit = w := by
    rw [takeWhile_app_all w rest hw]
    cases rest with
    | nil => simp
    | cons r rs =>
      simp only at hrest'
      simp [List.takeWhile_cons, hrest']
  have hdw : (w ++ rest).dropWhile Char.isDigit = rest := by
    rw [dropWhile_app_all w rest hw]
    cases rest with
    | nil => simp
    | cons r rs =>
      simp only at hrest'
      simp [List.dropWhile_cons, hrest']
  show lexChars ((c :: (w ++ rest)).length + 1) (c :: (w ++ rest)) = _
  rw [show (c :: (w ++ rest)).length + 1 = ((w ++ rest).length + 1) + 1 by simp]
  rw [lexChars_succ]
  rw [if_neg (digit_not_space hc)]
  rw [if_neg (ne_of_pred hc (by decide))]
  rw [if_neg (ne_of_pred hc (by decide))]
  rw [if_neg (ne_of_pred hc (by decide))]
  rw [if_neg (ne_of_pred hc (by decide))]
  rw [if_neg (ne_of_pred hc (by decide))]
  rw [if_neg (ne_of_pred hc (by decide))]
  rw [if_neg (ne_of_pred hc (by decide))]
  rw [if_neg (by simp [digit_not_identStart hc])]
  rw [if_pos hc, htw, hdw]
  rw [lexChars_eq_lexAll (by simp; omega)]

theorem lexAll_str (q : Char) (s rest : List Char)
    (hq : q = squote ∨ q = '"') (hs : ∀ x ∈ s, isStrStop x = false) :
    lexAll (q :: (s ++ q :: rest)) =
      (lexAll rest).map (fun ts => Token.strTok (String.mk s) :: ts) := by
  have hsp : ∀ x ∈ s, (!isStrStop x) = true := fun x hx => by rw [hs x hx]; rfl
  have hqs : isStrStop q = true := by
    rcases hq with h | h <;> (subst h; decide)
  have hdw : (s ++ q :: rest).dropWhile (fun d => !isStrStop d) = q :: rest := by
    rw [dropWhile_app_all s _ hsp]
    simp [List.dropWhile_cons, hqs]
  have htw : (s ++ q :: rest).takeWhile (fun d => !isStrStop d) = s := by
    rw [takeWhile_app_all s _ hsp]
    simp [List.takeWhile_cons, hqs]
  show lexChars ((q :: (s ++ q :: rest)).length + 1) (q :: (s ++ q :: rest)) = _
  rw [show (q :: (s ++ q :: rest)).length + 1 = ((s ++ q :: rest).length + 1) + 1 by simp]
  rw [lexChars_succ, htw, hdw]
  have hlen : (q :: rest).tail.length < (s ++ q :: rest).length + 1 := by simp; omega
  rcases hq with h | h <;> subst h
  · rw [if_neg (by decide)]
    rw [if_neg (by decide)]
    rw [if_neg (by decide)]
    rw [if_neg (by decide)]
    rw [if_neg (by decide)]
    rw [if_neg (by decide)]
    rw [if_neg (by decide)]
    rw [if_neg (by decide)]
    rw [if_neg (by decide)]
    rw [if_neg (by decide)]
    rw [if_pos (by decide)]
    rw [if_pos (by simp)]
    simp only [List.tail_cons]
    rw [lexChars_eq_lexAll (by simp; omega)]
  · rw [if_neg (by decide)]
    rw [if_neg (by decide)]
    rw [if_neg (by decide)]
    rw [if_neg (by decide)]
    rw [if_neg (by decide)]
    rw [if_neg (by decide)]
    rw [if_neg (by decide)]
    rw [if_neg (by decide)]
    rw [if_neg (by decide)]
    rw [if_neg (by decide)]
    rw [if_pos (by decide)]
    rw [if_pos (by simp)]
    simp only [List.tail_cons]
    rw [lexChars_eq_lexAll (by simp; omega)]

/-! ## Lexing generated text -/

theorem stringMk (s : String) : String.mk s.data = s := rfl

theorem wfStrLit_stopFalse {s : String} (h : wfStrLit s = true) :
    ∀ x ∈ s.data, isStrStop x = false := by
  intro x hx
  simp only [wfStrLit, List.all_eq_true] at h
  have := h x hx
  simp only [Bool.not_eq_true'] at this
  exact this

theorem wfIdent_parts {n : String} (h : wfIdent n = true) :
    ∃ c cs, n.data = c :: cs ∧ isIdentStart c = true ∧
      (∀ x ∈ cs, isIdentChar x = true) ∧ ¬(n = "import") := by
  rw [wfIdent, wfWord] at h
  simp only [Bool.and_eq_true, Bool.not_eq_true', beq_eq_false_iff_ne] at h
  obtain ⟨hw, hni⟩ := h
  cases hnd : n.data with
  | nil => rw [hnd, wfWordChars] at hw; cases hw
  | cons c cs =>
    rw [hnd, wfWordChars] at hw
    simp only [Bool.and_eq_true, List.all_eq_true] at hw
    exact ⟨c, cs, rfl, hw.1, hw.2, hni⟩

theorem wfIdent_ne_import {n : String} (h : wfIdent n = true) : ¬(n = "import") := by
  obtain ⟨_, _, _, _, _, hni⟩ := wfIdent_parts h
  exact hni

theorem wfNum_parts {r : String} (h : wfNum r = true) :
    ∃ c cs, r.data = c :: cs ∧ c.isDigit = true ∧ ∀ x ∈ cs, x.isDigit = true := by
  rw [wfNum] at h
  cases hnd : r.data with
  | nil => rw [hnd, wfNumChars] at h; cases h
  | cons c cs =>
    rw [hnd, wfNumChars] at h
    simp only [Bool.and_eq_true, List.all_eq_true] at h
    exact ⟨c, cs, rfl, h.1, h.2⟩

/-- Lexing a well-formed identifier occurrence. -/
theorem lexAll_identStr (n : String) (rest : List Char)
    (h : wfIdent n = true) (hrest : headNotIdent rest) :
    lexAll (n.data ++ rest) = (lexAll rest).map (fun ts => Token.word n :: ts) := by
  obtain ⟨c, cs, hnd, hc, hcs, _⟩ := wfIdent_parts h
  rw [hnd, List.cons_append, lexAll_word c cs rest hc hcs hrest]
  rw [show String.mk (c :: cs) = n from hnd ▸ stringMk n]

mutual
theorem lexAll_exprChars :
    ∀ (e : Expr), wfExpr e = true → ∀ rest : List Char, headNotIdent rest →
      lexAll (exprChars e ++ rest) = (lexAll rest).map (fun ts => exprToks e ++ ts)
  | .ident n => by
    intro hwf rest hrest
    rw [wfExpr] at hwf
    simp only [exprChars, exprToks]
    rw [lexAll_identStr n rest hwf hrest]
    rfl
  | .lit (.str s) => by
    intro hwf rest hrest
    rw [wfExpr, wfLit] at hwf
    simp only [exprChars, exprToks, litChars, litTok]
    rw [List.cons_append, List.append_assoc, List.singleton_append]
    rw [lexAll_str squote s.data rest (Or.inl rfl) (wfStrLit_stopFalse hwf)]
    rw [stringMk]
    rfl
  | .lit (.num r) => by
    intro hwf rest hrest
    rw [wfExpr, wfLit] at hwf
    obtain ⟨c, cs, hnd, hc, hcs⟩ := wfNum_parts hwf
    simp only [exprChars, exprToks, litChars, litTok]
    rw [hnd, List.cons_append, lexAll_num c cs rest hc hcs hrest]
    rw [show String.mk (c :: cs) = r from hnd ▸ stringMk r]
    rfl
  | .member o p computed => by
    intro hwf rest hrest
    rw [wfExpr] at hwf
    simp only [Bool.and_eq_true, Bool.or_eq_true] at hwf
    obtain ⟨⟨hwo, hwp⟩, hcp⟩ := hwf
    cases computed with
    | false =>
      have hip : isIdentExpr p = true := by
        rcases hcp with h | h
        · cases h
        · exact h
      cases p with
      | ident n =>
        rw [wfExpr] at hwp
        simp only [exprChars, exprToks, Bool.false_eq_true, if_false]
        rw [List.append_assoc, List.cons_append]
        rw [lexAll_exprChars o hwo ('.' :: (n.data ++ rest)) (by rw [headNotIdent]; decide)]
        rw [lexAll_dot, lexAll_identStr n rest hwp hrest]
        cases lexAll rest with
        | error e => rfl
        | ok ts => simp [Except.map]
      | lit v => simp [isIdentExpr] at hip
      | member o2 p2 c2 => simp [isIdentExpr] at hip
      | call f2 a2 => simp [isIdentExpr] at hip
    | true =>
      simp only [exprChars, exprToks, if_true]
      rw [List.append_assoc, List.cons_append, List.append_assoc, List.singleton_append]
      rw [lexAll_exprChars o hwo ('[' :: (exprChars p ++ (']' :: rest)))
        (by rw [headNotIdent]; decide)]
      rw [lexAll_lbracket]
      rw [lexAll_exprChars p hwp (']' :: rest) (by rw [headNotIdent]; decide)]
      rw [lexAll_rbracket]
      cases lexAll rest with
      | error e => rfl
      | ok ts => simp [Except.map]
  | .call f args => by
    intro hwf rest hrest
    rw [wfExpr] at hwf
    simp only [Bool.and_eq_true] at hwf
    obtain ⟨hwf1, hwa⟩ := hwf
    simp only [exprChars, exprToks]
    rw [List.append_assoc, List.cons_append, List.append_assoc, List.singleton_append]
    rw [lexAll_exprChars f hwf1 ('(' :: (argsChars args ++ (')' :: rest)))
      (by rw [headNotIdent]; decide)]
    rw [lexAll_lparen]
    rw [lexAll_argsChars args hwa (')' :: rest) (by rw [headNotIdent]; decide)]
    rw [lexAll_rparen]
    cases lexAll rest with
    | error e => rfl
    | ok ts => simp [Except.map]

theorem lexAll_argsChars :
    ∀ (args : ExprList), wfArgs args = true → ∀ rest : List Char, headNotIdent rest →
      lexAll (argsChars args ++ rest) = (lexAll rest).map (fun ts => argsToks args ++ ts)
  | .nil => by
    intro _ rest _
    simp only [argsChars, argsToks, List.nil_append]
    cases lexAll rest with
    | error e => rfl
    | ok ts => simp [Except.map]
  | .cons e .nil => by
    intro hwf rest hrest
    rw [wfArgs] at hwf
    simp only [Bool.and_eq_true] at hwf
    simp only [argsChars, argsToks]
    exact lexAll_exprChars e hwf.1 rest hrest
  | .cons e (.cons e2 t) => by
    intro hwf rest hrest
    rw [wfArgs] at hwf
    simp only [Bool.and_eq_true] at hwf
    obtain ⟨hwe, hwt⟩ := hwf
    simp only [argsChars, argsToks]
    rw [List.append_assoc, List.cons_append, List.cons_append]
    rw [lexAll_exprChars e hwe (',' :: (' ' :: (argsChars (.cons e2 t) ++ rest)))
      (by rw [headNotIdent]; decide)]
    rw [lexAll_comma, lexAll_blank]
    rw [lexAll_argsChars (.cons e2 t) hwt rest hrest]
    cases lexAll rest with
    | error e => rfl
    | ok ts => simp [Except.map]
end

theorem lexAll_importKw (tail : List Char) :
    lexAll ('i' :: 'm' :: 'p' :: 'o' :: 'r' :: 't' :: ' ' :: tail) =
      (lexAll tail).map (fun ts => Token.word "import" :: ts) := by
  have h := lexAll_word 'i' ['m', 'p', 'o', 'r', 't'] (' ' :: tail)
    (by decide) (by decide) (by show isIdentChar ' ' = false; decide)
  rw [lexAll_blank] at h
  exact h

theorem lexAll_fromKw (tail : List Char) :
    lexAll (' ' :: 'f' :: 'r' :: 'o' :: 'm' :: ' ' :: tail) =
      (lexAll tail).map (fun ts => Token.word "from" :: ts) := by
  have h := lexAll_word 'f' ['r', 'o', 'm'] (' ' :: tail)
    (by decide) (by decide) (by show isIdentChar ' ' = false; decide)
  rw [lexAll_blank] at h
  rw [show lexAll (' ' :: 'f' :: 'r' :: 'o' :: 'm' :: ' ' :: tail) =
    lexAll ('f' :: (['r', 'o', 'm'] ++ (' ' :: tail))) from rfl]
  exact h

theorem lexAll_strLit (s : String) (tail : List Char) (h : wfStrLit s = true) :
    lexAll (squote :: (s.data ++ (squote :: tail))) =
      (lexAll tail).map (fun ts => Token.strTok s :: ts) := by
  rw [lexAll_str squote s.data tail (Or.inl rfl) (wfStrLit_stopFalse h), stringMk]

theorem lexAll_stmtChars :
    ∀ (s : Stmt), wfStmt s = true → ∀ rest : List Char,
      lexAll (stmtChars s ++ rest) = (lexAll rest).map (fun ts => stmtToks s ++ ts)
  | .importDecl l src => by
    intro hwf rest
    rw [wfStmt] at hwf
    simp only [Bool.and_eq_true] at hwf
    obtain ⟨hwl, hws⟩ := hwf
    simp only [stmtChars, stmtToks]
    simp only [List.append_assoc, List.cons_append, List.singleton_append,
      List.nil_append]
    rw [lexAll_importKw]
    rw [lexAll_identStr l _ hwl (by show isIdentChar ' ' = false; decide)]
    rw [lexAll_fromKw]
    rw [lexAll_strLit src (';' :: rest) hws]
    rw [lexAll_semi]
    cases lexAll rest with
    | error e => rfl
    | ok ts => simp [Except.map]
  | .exprStmt e d => by
    intro hwf rest
    rw [wfStmt] at hwf
    simp only [Bool.and_eq_true] at hwf
    simp only [stmtChars, stmtToks]
    simp only [List.append_assoc, List.singleton_append]
    rw [lexAll_exprChars e hwf.1 (';' :: rest) (by rw [headNotIdent]; decide)]
    rw [lexAll_semi]
    cases lexAll rest with
    | error e2 => rfl
    | ok ts => simp [Except.map]
  | .emptyStmt => by
    intro _ rest
    simp only [stmtChars, stmtToks, List.singleton_append]
    rw [lexAll_semi]

theorem generate_nil : generate [] = "" := rfl

theorem generate_single (s : Stmt) : (generate [s]).data = stmtChars s := rfl

theorem generate_data_cons (s s2 : Stmt) (ss : List Stmt) :
    (generate (s :: s2 :: ss)).data =
      stmtChars s ++ ('\n' :: (generate (s2 :: ss)).data) := by
  have h1 : generate (s :: s2 :: ss) =
      (String.mk (stmtChars s) ++ "\n") ++ generate (s2 :: ss) := rfl
  rw [h1, String.data_append, String.data_append, List.append_assoc]
  rfl

theorem lexAll_generate :
    ∀ (p : Program), wfProgram p = true → lexAll (generate p).data = .ok (progToks p)
  | [] => by intro _; rfl
  | [s] => by
    intro hwf
    simp only [wfProgram, List.all_cons, List.all_nil, Bool.and_eq_true] at hwf
    rw [generate_single, show stmtChars s = stmtChars s ++ [] by simp]
    rw [lexAll_stmtChars s hwf.1 []]
    show (Except.ok []).map _ = _
    simp [Except.map, progToks]
  | s :: s2 :: ss => by
    intro hwf
    simp only [wfProgram, List.all_cons, Bool.and_eq_true] at hwf
    obtain ⟨hs, hs2, hss⟩ := hwf
    rw [generate_data_cons, lexAll_stmtChars s hs _, lexAll_nl]
    have hrec := lexAll_generate (s2 :: ss)
      (by simp only [wfProgram, List.all_cons, Bool.and_eq_true]; exact ⟨hs2, hss⟩)
    rw [hrec]
    simp [Except.map, progToks]

/-- The modelled `lex` on generated well-formed text. -/
theorem lex_generate (p : Program) (h : wfProgram p = true) :
    lex (generate p) = .ok (progToks p) := by
  rw [lex_eq_lexAll]
  exact lexAll_generate p h

/-! ## The left-spine view: decomposition lemmas -/

theorem applySuffixes_concat (base : Expr) (ss : List Suffix) (s : Suffix) :
    applySuffixes base (ss ++ [s]) = applySuffix (applySuffixes base ss) s := by
  simp [applySuffixes, List.foldl_append]

theorem headExpr_prim : ∀ e : Expr, isPrim (headExpr e) = true
  | .ident _ => rfl
  | .lit _ => rfl
  | .member o _ _ => headExpr_prim o
  | .call f _ => headExpr_prim f

theorem isIdentExpr_ident {p : Expr} (h : isIdentExpr p = true) :
    ∃ n, p = .ident n := by
  cases p with
  | ident n => exact ⟨n, rfl⟩
  | lit v => exact Bool.noConfusion h
  | member a b c => exact Bool.noConfusion h
  | call f a => exact Bool.noConfusion h

theorem wfExpr_member_parts {o p : Expr} {computed : Bool}
    (h : wfExpr (.member o p computed) = true) :
    wfExpr o = true ∧ wfExpr p = true ∧ (computed = true ∨ isIdentExpr p = true) := by
  rw [wfExpr] at h
  simp only [Bool.and_eq_true, Bool.or_eq_true] at h
  exact ⟨h.1.1, h.1.2, h.2⟩

theorem view_apply : ∀ e : Expr, wfExpr e = true →
    applySuffixes (headExpr e) (suffixesOf e) = e
  | .ident _ => fun _ => rfl
  | .lit _ => fun _ => rfl
  | .member o p computed => by
    intro hwf
    obtain ⟨hwo, hwp, hcp⟩ := wfExpr_member_parts hwf
    show applySuffixes (headExpr o)
      (suffixesOf o ++ [if computed then Suffix.brackS p else Suffix.dotS (propName p)]) = _
    rw [applySuffixes_concat, view_apply o hwo]
    cases computed with
    | true => rfl
    | false =>
      have hip : isIdentExpr p = true := by
        rcases hcp with h | h
        · exact Bool.noConfusion h
        · exact h
      obtain ⟨n, rfl⟩ := isIdentExpr_ident hip
      rfl
  | .call f args => by
    intro hwf
    rw [wfExpr] at hwf
    simp only [Bool.and_eq_true] at hwf
    show applySuffixes (headExpr f) (suffixesOf f ++ [Suffix.callS args]) = _
    rw [applySuffixes_concat, view_apply f hwf.1]
    rfl

theorem view_toks : ∀ e : Expr, wfExpr e = true →
    exprToks e = exprToks (headExpr e) ++ ((suffixesOf e).map suffixToks).flatten
  | .ident n => fun _ => by simp [suffixesOf, headExpr]
  | .lit v => fun _ => by simp [suffixesOf, headExpr]
  | .member o p computed => by
    intro hwf
    obtain ⟨hwo, hwp, hcp⟩ := wfExpr_member_parts hwf
    cases computed with
    | true =>
      show exprToks o ++ .lbracket :: (exprToks p ++ [.rbracket]) = _
      rw [view_toks o hwo]
      show _ = exprToks (headExpr o) ++
        ((suffixesOf o ++ [Suffix.brackS p]).map suffixToks).flatten
      simp [suffixToks, List.append_assoc]
    | false =>
      have hip : isIdentExpr p = true := by
        rcases hcp with h | h
        · exact Bool.noConfusion h
        · exact h
      obtain ⟨n, rfl⟩ := isIdentExpr_ident hip
      show exprToks o ++ .dot :: exprToks (.ident n) = _
      rw [view_toks o hwo]
      show _ = exprToks (headExpr o) ++
        ((suffixesOf o ++ [Suffix.dotS (propName (.ident n))]).map suffixToks).flatten
      simp [suffixToks, propName, exprToks, List.append_assoc]
  | .call f args => by
    intro hwf
    rw [wfExpr] at hwf
    simp only [Bool.and_eq_true] at hwf
    show exprToks f ++ .lparen :: (argsToks args ++ [.rparen]) = _
    rw [view_toks f hwf.1]
    show _ = exprToks (headExpr f) ++
      ((suffixesOf f ++ [Suffix.callS args]).map suffixToks).flatten
    simp [suffixToks, List.append_assoc]

theorem view_wf : ∀ e : Expr, wfExpr e = true →
    wfExpr (headExpr e) = true ∧ ∀ s ∈ suffixesOf e, wfSuffix s = true
  | .ident n => fun h => ⟨h, by simp [suffixesOf]⟩
  | .lit v => fun h => ⟨h, by simp [suffixesOf]⟩
  | .member o p computed => by
    intro hwf
    obtain ⟨hwo, hwp, hcp⟩ := wfExpr_member_parts hwf
    obtain ⟨hh, hs⟩ := view_wf o hwo
    refine ⟨hh, ?_⟩
    intro s hsm
    have hsm2 : s ∈ suffixesOf o ++
        [if computed then Suffix.brackS p else Suffix.dotS (propName p)] := hsm
    rw [List.mem_append, List.mem_singleton] at hsm2
    rcases hsm2 with h | h
    · exact hs s h
    · subst h
      cases computed with
      | true => exact hwp
      | false =>
        have hip : isIdentExpr p = true := by
          rcases hcp with h | h
          · exact Bool.noConfusion h
          · exact h
        obtain ⟨n, rfl⟩ := isIdentExpr_ident hip
        rw [wfExpr] at hwp
        exact hwp
  | .call f args => by
    intro hwf
    rw [wfExpr] at hwf
    simp only [Bool.and_eq_true] at hwf
    obtain ⟨hh, hs⟩ := view_wf f hwf.1
    refine ⟨hh, ?_⟩
    intro s hsm
    have hsm2 : s ∈ suffixesOf f ++ [Suffix.callS args] := hsm
    rw [List.mem_append, List.mem_singleton] at hsm2
    rcases hsm2 with h | h
    · exact hs s h
    · subst h
      exact hwf.2

theorem prim_toks (e : Expr) (h : isPrim e = true) : ∃ t, exprToks e = [t] := by
  cases e with
  | ident n => exact ⟨_, rfl⟩
  | lit v => exact ⟨_, rfl⟩
  | member o p c => exact Bool.noConfusion h
  | call f a => exact Bool.noConfusion h

theorem parsePrimary_prim : ∀ (e : Expr), isPrim e = true → wfExpr e = true →
    ∀ rest, parsePrimary (exprToks e ++ rest) = .ok (e, rest)
  | .ident n, _, hwf, rest => by
    rw [wfExpr] at hwf
    show parsePrimary (.word n :: rest) = _
    simp only [parsePrimary]
    rw [if_neg (wfIdent_ne_import hwf)]
  | .lit (.str s), _, _, rest => rfl
  | .lit (.num r), _, _, rest => rfl
  | .member _ _ _, h, _, _ => Bool.noConfusion h
  | .call _ _, h, _, _ => Bool.noConfusion h

/-! ## Parser step lemmas -/

theorem ok_bind {ε α β : Type} (x : α) (f : α → Except ε β) :
    ((Except.ok x : Except ε α) >>= f) = f x := rfl

theorem parseExpr_succ (fuel : Nat) (toks : List Token) :
    parseExpr (fuel + 1) toks =
      (parsePrimary toks >>= fun x => parseSuffixes fuel x.1 x.2) := rfl

theorem parseSuffixes_stop (fuel : Nat) (base : Expr) (toks : List Token)
    (h : stopTok toks = true) :
    parseSuffixes (fuel + 1) base toks = .ok (base, toks) := by
  cases toks with
  | nil => rfl
  | cons t r =>
    cases t with
    | dot => exact Bool.noConfusion h
    | lbracket => exact Bool.noConfusion h
    | lparen => exact Bool.noConfusion h
    | word s => rfl
    | strTok s => rfl
    | numTok s => rfl
    | comma => rfl
    | rparen => rfl
    | rbracket => rfl
    | semi => rfl

theorem parseSuffixes_dot (fuel : Nat) (base : Expr) (p : String) (rest : List Token) :
    parseSuffixes (fuel + 1) base (.dot :: .word p :: rest) =
      (if p = "import" then .error ⟨"parse: bad property name"⟩
       else parseSuffixes fuel (.member base (.ident p) false) rest) := rfl

theorem parseSuffixes_lbracket (fuel : Nat) (base : Expr) (rest : List Token) :
    parseSuffixes (fuel + 1) base (.lbracket :: rest) =
      (parseExpr fuel rest >>= fun x =>
        match x.2 with
        | .rbracket :: r2 => parseSuffixes fuel (.member base x.1 true) r2
        | _ => .error ⟨"parse: expected closing bracket"⟩) := rfl

theorem parseSuffixes_lparen (fuel : Nat) (base : Expr) (rest : List Token) :
    parseSuffixes (fuel + 1) base (.lparen :: rest) =
      (parseArgs fuel rest >>= fun x =>
        match x.2 with
        | .rparen :: r2 => parseSuffixes fuel (.call base x.1) r2
        | _ => .error ⟨"parse: expected closing paren"⟩) := rfl

theorem parseArgs_rparen (fuel : Nat) (r : List Token) :
    parseArgs (fuel + 1) (.rparen :: r) = .ok (.nil, .rparen :: r) := rfl

theorem parseArgs_not_rparen (fuel : Nat) (toks : List Token)
    (h : toks.head? ≠ some Token.rparen) :
    parseArgs (fuel + 1) toks =
      (parseExpr fuel toks >>= fun x => parseArgsMore fuel x.1 x.2) := by
  cases toks with
  | nil => rfl
  | cons t r =>
    cases t with
    | rparen => exact absurd rfl h
    | word s => rfl
    | strTok s => rfl
    | numTok s => rfl
    | dot => rfl
    | comma => rfl
    | lparen => rfl
    | lbracket => rfl
    | rbracket => rfl
    | semi => rfl

theorem parseArgsMore_comma (fuel : Nat) (e : Expr) (rest : List Token) :
    parseArgsMore (fuel + 1) e (.comma :: rest) =
      (parseExpr fuel rest >>= fun x =>
        parseArgsMore fuel x.1 x.2 >>= fun y => .ok (.cons e y.1, y.2)) := rfl

theorem parseArgsMore_stop (fuel : Nat) (e : Expr) (toks : List Token)
    (h : toks.head? ≠ some Token.comma) :
    parseArgsMore (fuel + 1) e toks = .ok (.cons e .nil, toks) := by
  cases toks with
  | nil => rfl
  | cons t r =>
    cases t with
    | comma => exact absurd rfl h
    | word s => rfl
    | strTok s => rfl
    | numTok s => rfl
    | dot => rfl
    | rparen => rfl
    | lparen => rfl
    | lbracket => rfl
    | rbracket => rfl
    | semi => rfl

/-! ## Token-stream facts -/

def argsTailToks : ExprList → List Token
  | .nil => []
  | .cons e t => .comma :: (exprToks e ++ argsTailToks t)

theorem argsToks_decomp :
    ∀ (t : ExprList) (e : Expr), argsToks (.cons e t) = exprToks e ++ argsTailToks t
  | .nil, e => by simp [argsToks, argsTailToks]
  | .cons e2 t2, e => by
    simp [argsToks, argsTailToks, argsToks_decomp t2 e2]

theorem exprToks_pos : ∀ e : Expr, 0 < (exprToks e).length
  | .ident n => by simp [exprToks]
  | .lit v => by simp [exprToks]
  | .member o p c => by
    have := exprToks_pos o
    cases c with
    | false =>
      simp only [exprToks, Bool.false_eq_true, if_false, List.length_append,
        List.length_cons]
      omega
    | true =>
      simp only [exprToks, if_true, List.length_append, List.length_cons]
      omega
  | .call f args => by
    have := exprToks_pos f
    simp only [exprToks, List.length_append, List.length_cons]
    omega

theorem stopTok_rparen_head {rest : List Token} (h : rest.head? = some Token.rparen) :
    stopTok rest = true := by
  cases rest with
  | nil => simp at h
  | cons t r =>
    have ht : t = Token.rparen := by simpa using h
    subst ht
    rfl

theorem stopTok_argsTail (t : ExprList) {rest : List Token}
    (h : rest.head? = some Token.rparen) :
    stopTok (argsTailToks t ++ rest) = true := by
  cases t with
  | nil => exact stopTok_rparen_head h
  | cons e t2 => rfl

theorem exprToks_head (e : Expr) (hwf : wfExpr e = true) :
    (∃ n r0, exprToks e = .word n :: r0 ∧ ¬(n = "import")) ∨
    (∃ s r0, exprToks e = .strTok s :: r0) ∨
    (∃ s r0, exprToks e = .numTok s :: r0) := by
  obtain ⟨hh, _⟩ := view_wf e hwf
  have hv := view_toks e hwf
  cases hhe : headExpr e with
  | ident n =>
    rw [hhe] at hv hh
    rw [wfExpr] at hh
    exact .inl ⟨n, _, by rw [hv]; rfl, wfIdent_ne_import hh⟩
  | lit v =>
    rw [hhe] at hv
    cases v with
    | str s => exact .inr (.inl ⟨s, _, by rw [hv]; rfl⟩)
    | num r => exact .inr (.inr ⟨r, _, by rw [hv]; rfl⟩)
  | member o p c =>
    have hp := headExpr_prim e
    rw [hhe] at hp
    exact Bool.noConfusion hp
  | call f a =>
    have hp := headExpr_prim e
    rw [hhe] at hp
    exact Bool.noConfusion hp

/-! ## Parser round trip over token streams -/

theorem parse_fuel :
    ∀ fuel : Nat,
      (∀ (e : Expr) (rest : List Token), wfExpr e = true → stopTok rest = true →
        3 * (exprToks e ++ rest).length + 2 ≤ fuel →
        parseExpr fuel (exprToks e ++ rest) = .ok (e, rest)) ∧
      (∀ (ss : List Suffix) (base : Expr) (rest : List Token),
        (∀ s ∈ ss, wfSuffix s = true) → stopTok rest = true →
        3 * ((ss.map suffixToks).flatten ++ rest).length + 1 ≤ fuel →
        parseSuffixes fuel base ((ss.map suffixToks).flatten ++ rest) =
          .ok (applySuffixes base ss, rest)) ∧
      (∀ (args : ExprList) (rest : List Token), wfArgs args = true →
        rest.head? = some Token.rparen →
        3 * (argsToks args ++ rest).length + 3 ≤ fuel →
        parseArgs fuel (argsToks args ++ rest) = .ok (args, rest)) ∧
      (∀ (t : ExprList) (e : Expr) (rest : List Token), wfArgs t = true →
        rest.head? = some Token.rparen →
        3 * (argsTailToks t ++ rest).length + 4 ≤ fuel →
        parseArgsMore fuel e (argsTailToks t ++ rest) = .ok (.cons e t, rest)) := by
  intro fuel
  induction fuel with
  | zero =>
    exact ⟨fun e rest _ _ hb => by omega, fun ss b rest _ _ hb => by omega,
      fun a rest _ _ hb => by omega, fun t e rest _ _ hb => by omega⟩
  | succ fuel ih =>
    obtain ⟨ihPE, ihPS, ihPA, ihPAM⟩ := ih
    refine ⟨?_, ?_, ?_, ?_⟩
    · -- parseExpr
      intro e rest hwf hstop hb
      obtain ⟨hh, hs⟩ := view_wf e hwf
      have hv := view_toks e hwf
      obtain ⟨T, hT⟩ := prim_toks (headExpr e) (headExpr_prim e)
      have hplen : (exprToks (headExpr e)).length = 1 := by rw [hT]; rfl
      rw [hv, List.append_assoc, parseExpr_succ,
        parsePrimary_prim (headExpr e) (headExpr_prim e) hh
          (((suffixesOf e).map suffixToks).flatten ++ rest),
        ok_bind]
      show parseSuffixes fuel (headExpr e)
        (((suffixesOf e).map suffixToks).flatten ++ rest) = .ok (e, rest)
      rw [ihPS (suffixesOf e) (headExpr e) rest hs hstop (by
        have hlen := congrArg List.length hv
        simp only [List.length_append, hplen] at hlen hb ⊢
        omega)]
      rw [view_apply e hwf]
    · -- parseSuffixes
      intro ss base rest hss hstop hb
      cases ss with
      | nil =>
        simp only [List.map_nil, List.flatten_nil, List.nil_append]
        rw [parseSuffixes_stop fuel base rest hstop]
        rfl
      | cons sfx ss2 =>
        have hsfx : wfSuffix sfx = true := hss sfx (by simp)
        have hss2 : ∀ s ∈ ss2, wfSuffix s = true := fun s hsm => hss s (by simp [hsm])
        cases sfx with
        | dotS n =>
          rw [wfSuffix] at hsfx
          simp only [List.map_cons, List.flatten_cons, suffixToks, List.cons_append,
            List.append_assoc, List.nil_append]
          rw [parseSuffixes_dot, if_neg (wfIdent_ne_import hsfx)]
          rw [ihPS ss2 (.member base (.ident n) false) rest hss2 hstop (by
            simp only [List.map_cons, List.flatten_cons, suffixToks,
              List.length_append, List.length_cons] at hb ⊢
            omega)]
          rfl
        | brackS eIdx =>
          rw [wfSuffix] at hsfx
          simp only [List.map_cons, List.flatten_cons, suffixToks, List.cons_append,
            List.append_assoc, List.singleton_append, List.nil_append]
          rw [parseSuffixes_lbracket]
          rw [ihPE eIdx (.rbracket :: ((ss2.map suffixToks).flatten ++ rest)) hsfx rfl (by
            simp only [List.map_cons, List.flatten_cons, suffixToks,
              List.length_append, List.length_cons] at hb ⊢
            omega)]
          rw [ok_bind]
          show parseSuffixes fuel (.member base eIdx true)
            ((ss2.map suffixToks).flatten ++ rest) = _
          rw [ihPS ss2 (.member base eIdx true) rest hss2 hstop (by
            simp only [List.map_cons, List.flatten_cons, suffixToks,
              List.length_append, List.length_cons] at hb ⊢
            omega)]
          rfl
        | callS args =>
          rw [wfSuffix] at hsfx
          simp only [List.map_cons, List.flatten_cons, suffixToks, List.cons_append,
            List.append_assoc, List.singleton_append, List.nil_append]
          rw [parseSuffixes_lparen]
          rw [ihPA args (.rparen :: ((ss2.map suffixToks).flatten ++ rest)) hsfx rfl (by
            simp only [List.map_cons, List.flatten_cons, suffixToks,
              List.length_append, List.length_cons] at hb ⊢
            omega)]
          rw [ok_bind]
          show parseSuffixes fuel (.call base args)
            ((ss2.map suffixToks).flatten ++ rest) = _
          rw [ihPS ss2 (.call base args) rest hss2 hstop (by
            simp only [List.map_cons, List.flatten_cons, suffixToks,
              List.length_append, List.length_cons] at hb ⊢
            omega)]
          rfl
    · -- parseArgs
      intro args rest hwa hr hb
      cases args with
      | nil =>
        cases rest with
        | nil => simp at hr
        | cons t r =>
          have ht : t = Token.rparen := by simpa using hr
          subst ht
          simp only [argsToks, List.nil_append]
          exact parseArgs_rparen fuel r
      | cons e t =>
        rw [wfArgs] at hwa
        simp only [Bool.and_eq_true] at hwa
        obtain ⟨hwe, hwt⟩ := hwa
        have hepos := exprToks_pos e
        rw [argsToks_decomp, List.append_assoc]
        have hhead : (exprToks e ++ (argsTailToks t ++ rest)).head? ≠
            some Token.rparen := by
          rcases exprToks_head e hwe with ⟨n, r0, hsh, _⟩ | ⟨s, r0, hsh⟩ | ⟨s, r0, hsh⟩ <;>
            (rw [hsh]; simp)
        rw [parseArgs_not_rparen fuel _ hhead]
        rw [ihPE e (argsTailToks t ++ rest) hwe (stopTok_argsTail t hr) (by
          rw [argsToks_decomp] at hb
          simp only [List.length_append] at hb ⊢
          omega)]
        rw [ok_bind]
        show parseArgsMore fuel e (argsTailToks t ++ rest) = _
        rw [ihPAM t e rest hwt hr (by
          rw [argsToks_decomp] at hb
          simp only [List.length_append] at hb ⊢
          omega)]
    · -- parseArgsMore
      intro t e rest hwt hr hb
      cases t with
      | nil =>
        simp only [argsTailToks, List.nil_append]
        refine parseArgsMore_stop fuel e rest (fun hc => ?_)
        rw [hr] at hc
        exact Token.noConfusion (Option.some.inj hc)
      | cons e2 t2 =>
        rw [wfArgs] at hwt
        simp only [Bool.and_eq_true] at hwt
        obtain ⟨hwe2, hwt2⟩ := hwt
        have hepos := exprToks_pos e2
        simp only [argsTailToks, List.cons_append, List.append_assoc]
        rw [parseArgsMore_comma]
        rw [ihPE e2 (argsTailToks t2 ++ rest) hwe2 (stopTok_argsTail t2 hr) (by
          simp only [argsTailToks, List.length_append, List.length_cons] at hb ⊢
          omega)]
        rw [ok_bind]
        show (parseArgsMore fuel e2 (argsTailToks t2 ++ rest) >>= fun y =>
          Except.ok (ExprList.cons e y.1, y.2)) =
            Except.ok (ExprList.cons e (ExprList.cons e2 t2), rest)
        rw [ihPAM t2 e2 rest hwt2 hr (by
          simp only [argsTailToks, List.length_append, List.length_cons] at hb ⊢
          omega)]
        rfl

/-! ## Statement and program round trip -/

/-- The shape of a freshly parsed statement: no directive yet. -/
def clearDir : Stmt → Stmt
  | .exprStmt e _ => .exprStmt e none
  | s => s

theorem parseStmt_semi (fuel : Nat) (rest : List Token) :
    parseStmt fuel (.semi :: rest) = .ok (.emptyStmt, rest) := rfl

theorem parseStmt_word (fuel : Nat) (s : String) (rest : List Token) :
    parseStmt fuel (.word s :: rest) =
      (if s = "import" then parseImportTail rest
       else parseExprStmt fuel (.word s :: rest)) := rfl

theorem parseStmt_other (fuel : Nat) (toks : List Token)
    (h1 : toks.head? ≠ some Token.semi)
    (h2 : ∀ n, toks.head? ≠ some (Token.word n)) :
    parseStmt fuel toks = parseExprStmt fuel toks := by
  cases toks with
  | nil => rfl
  | cons t r =>
    cases t with
    | semi => exact absurd rfl h1
    | word s => exact absurd rfl (h2 s)
    | strTok s => rfl
    | numTok s => rfl
    | dot => rfl
    | comma => rfl
    | lparen => rfl
    | rparen => rfl
    | lbracket => rfl
    | rbracket => rfl

theorem parseExprStmt_rt (fuel : Nat) (e : Expr) (rest : List Token)
    (hwf : wfExpr e = true)
    (hb : 3 * (exprToks e ++ (Token.semi :: rest)).length + 2 ≤ fuel) :
    parseExprStmt fuel (exprToks e ++ (.semi :: rest)) =
      .ok (.exprStmt e none, rest) := by
  have hPE := (parse_fuel fuel).1 e (.semi :: rest) hwf rfl hb
  show (parseExpr fuel (exprToks e ++ (.semi :: rest)) >>= fun x =>
    match x.2 with
    | Token.semi :: r2 => Except.ok (Stmt.exprStmt x.1 none, r2)
    | _ => Except.error ⟨"parse: expected semicolon"⟩) =
      Except.ok (Stmt.exprStmt e none, rest)
  rw [hPE, ok_bind]

theorem parseStmt_rt (fuel : Nat) (s : Stmt) (rest : List Token)
    (hwf : wfStmt s = true)
    (hb : 3 * (stmtToks s ++ rest).length + 2 ≤ fuel) :
    parseStmt fuel (stmtToks s ++ rest) = .ok (clearDir s, rest) := by
  cases s with
  | emptyStmt => exact parseStmt_semi fuel rest
  | importDecl l src =>
    rw [wfStmt] at hwf
    simp only [Bool.and_eq_true] at hwf
    show parseStmt fuel (.word "import" :: .word l :: .word "from" :: .strTok src ::
      .semi :: rest) = _
    rw [parseStmt_word, if_pos rfl]
    show parseImportTail (.word l :: .word "from" :: .strTok src :: .semi :: rest) = _
    simp only [parseImportTail]
    rw [if_neg (wfIdent_ne_import hwf.1), if_pos trivial]
    rfl
  | exprStmt e d =>
    rw [wfStmt] at hwf
    simp only [Bool.and_eq_true] at hwf
    have hsh : stmtToks (.exprStmt e d) ++ rest = exprToks e ++ (.semi :: rest) := by
      simp [stmtToks, List.append_assoc]
    have hbnd : 3 * (exprToks e ++ (Token.semi :: rest)).length + 2 ≤ fuel := by
      rw [← hsh]
      exact hb
    rw [hsh]
    rcases exprToks_head e hwf.1 with ⟨n, r0, hsh2, hni⟩ | ⟨s2, r0, hsh2⟩ | ⟨s2, r0, hsh2⟩
    · rw [hsh2, List.cons_append, parseStmt_word, if_neg hni, ← List.cons_append,
        ← hsh2]
      exact parseExprStmt_rt fuel e rest hwf.1 hbnd
    · rw [hsh2, List.cons_append, parseStmt_other fuel _ (by simp) (by simp),
        ← List.cons_append, ← hsh2]
      exact parseExprStmt_rt fuel e rest hwf.1 hbnd
    · rw [hsh2, List.cons_append, parseStmt_other fuel _ (by simp) (by simp),
        ← List.cons_append, ← hsh2]
      exact parseExprStmt_rt fuel e rest hwf.1 hbnd

theorem parseProgramAux_step (fuel : Nat) (toks : List Token) (h : toks ≠ []) :
    parseProgramAux (fuel + 1) toks =
      (parseStmt fuel toks >>= fun x =>
        (parseProgramAux fuel x.2).map (fun ss => x.1 :: ss)) := by
  cases toks with
  | nil => exact absurd rfl h
  | cons t ts => rfl

theorem stmtToks_pos : ∀ s : Stmt, 0 < (stmtToks s).length
  | .emptyStmt => by simp [stmtToks]
  | .importDecl l src => by simp [stmtToks]
  | .exprStmt e d => by simp [stmtToks]

theorem parseProgramAux_rt :
    ∀ (p : Program) (fuel : Nat), wfProgram p = true →
      3 * (progToks p).length + 3 ≤ fuel →
      parseProgramAux fuel (progToks p) = .ok (p.map clearDir)
  | [], fuel => by
    intro _ hb
    cases fuel with
    | zero => omega
    | succ fuel => rfl
  | s :: ss, fuel => by
    intro hwf hb
    simp only [wfProgram, List.all_cons, Bool.and_eq_true] at hwf
    obtain ⟨hs, hss⟩ := hwf
    cases fuel with
    | zero => omega
    | succ fuel =>
      have hdec : progToks (s :: ss) = stmtToks s ++ progToks ss := by
        simp [progToks]
      rw [hdec] at hb ⊢
      rw [parseProgramAux_step fuel _ (by
        intro hE
        have h0 := congrArg List.length hE
        have hp := stmtToks_pos s
        simp only [List.length_append, List.length_nil] at h0
        omega)]
      rw [parseStmt_rt fuel s (progToks ss) hs (by omega)]
      rw [ok_bind]
      show (parseProgramAux fuel (progToks ss)).map (fun ss2 => clearDir s :: ss2) = _
      rw [parseProgramAux_rt ss fuel hss (by
        have hp := stmtToks_pos s
        simp only [List.length_append] at hb
        omega)]
      rfl

theorem markDirectives_clearDir :
    ∀ (p : Program), wfProgram p = true → markDirectives (p.map clearDir) = p := by
  intro p
  induction p with
  | nil => intro _; rfl
  | cons s ss ih =>
    intro hwf
    simp only [wfProgram, List.all_cons, Bool.and_eq_true] at hwf
    obtain ⟨hs, hss⟩ := hwf
    have hstep : markDirectives ((s :: ss).map clearDir) =
        markDirective (clearDir s) :: markDirectives (ss.map clearDir) := rfl
    rw [hstep, ih hss]
    have hone : markDirective (clearDir s) = s := by
      cases s with
      | importDecl l src => rfl
      | emptyStmt => rfl
      | exprStmt e d =>
        rw [wfStmt] at hs
        simp only [Bool.and_eq_true] at hs
        have hd := hs.2
        rw [dirOK] at hd
        cases e with
        | lit v =>
          cases v with
          | str v2 =>
            have hdd : d = some v2 := by simpa [strLitVal?] using hd
            subst hdd
            rfl
          | num r =>
            have hdd : d = none := by simpa [strLitVal?] using hd
            subst hdd
            rfl
        | ident n =>
          have hdd : d = none := by simpa [strLitVal?] using hd
          subst hdd
          rfl
        | member o p c =>
          have hdd : d = none := by simpa [strLitVal?] using hd
          subst hdd
          rfl
        | call f a =>
          have hdd : d = none := by simpa [strLitVal?] using hd
          subst hdd
          rfl
    rw [hone]

/-- Round trip: parsing the generated text of a well-formed tree yields
the tree back. -/
theorem acornParse_generate (p : Program) (h : wfProgram p = true) :
    acornParse (generate p) = .ok p := by
  show (lex (generate p) >>= fun toks =>
    parseProgramAux (3 * toks.length + 5) toks >>= fun raw =>
      pure (markDirectives raw)) = _
  rw [lex_generate p h, ok_bind]
  show (parseProgramAux (3 * (progToks p).length + 5) (progToks p) >>= fun raw =>
    pure (markDirectives raw)) = _
  rw [parseProgramAux_rt p (3 * (progToks p).length + 5) h (by omega), ok_bind]
  show Except.ok (markDirectives (p.map clearDir)) = _
  rw [markDirectives_clearDir p h]

/-! ## Well-formedness of lexer output -/

def wfTok : Token → Bool
  | .word s => wfWord s
  | .strTok s => wfStrLit s
  | .numTok s => wfNum s
  | _ => true

theorem map_eq_ok {ε α β : Type} {f : α → β} {x : Except ε α} {y : β}
    (h : x.map f = .ok y) : ∃ a, x = .ok a ∧ y = f a := by
  cases x with
  | error e => exact Except.noConfusion h
  | ok a => exact ⟨a, rfl, (Except.ok.inj h).symm⟩

theorem bind_eq_ok {ε α β : Type} {x : Except ε α} {f : α → Except ε β} {y : β}
    (h : (x >>= f) = .ok y) : ∃ a, x = .ok a ∧ f a = .ok y := by
  cases x with
  | error e => exact Except.noConfusion h
  | ok a => exact ⟨a, rfl, h⟩

theorem lexChars_wf :
    ∀ (fuel : Nat) (cs : List Char) (ts : List Token),
      lexChars fuel cs = .ok ts → ∀ t ∈ ts, wfTok t = true := by
  intro fuel
  induction fuel with
  | zero =>
    intro cs ts h
    exact Except.noConfusion h
  | succ fuel ih =>
    intro cs ts h
    cases cs with
    | nil =>
      have hts : ts = [] := (Except.ok.inj h).symm
      subst hts
      intro t ht
      cases ht
    | cons c cs =>
      have hcons : ∀ (tk : Token) (cs2 : List Char), wfTok tk = true →
          (lexChars fuel cs2).map (fun ts2 => tk :: ts2) = .ok ts →
          ∀ t ∈ ts, wfTok t = true := by
        intro tk cs2 hw hmap t ht
        obtain ⟨ts0, hx, hts⟩ := map_eq_ok hmap
        subst hts
        rcases List.mem_cons.mp ht with rfl | ht2
        · exact hw
        · exact ih cs2 ts0 hx t ht2
      rw [lexChars_succ] at h
      by_cases h1 : isSpaceChar c = true
      · rw [if_pos h1] at h
        exact ih cs ts h
      rw [if_neg h1] at h
      by_cases h2 : c = '.'
      · rw [if_pos h2] at h
        exact hcons Token.dot cs rfl h
      rw [if_neg h2] at h
      by_cases h3 : c = ','
      · rw [if_pos h3] at h
        exact hcons Token.comma cs rfl h
      rw [if_neg h3] at h
      by_cases h4 : c = '('
      · rw [if_pos h4] at h
        exact hcons Token.lparen cs rfl h
      rw [if_neg h4] at h
      by_cases h5 : c = ')'
      · rw [if_pos h5] at h
        exact hcons Token.rparen cs rfl h
      rw [if_neg h5] at h
      by_cases h6 : c = '['
      · rw [if_pos h6] at h
        exact hcons Token.lbracket cs rfl h
      rw [if_neg h6] at h
      by_cases h7 : c = ']'
      · rw [if_pos h7] at h
        exact hcons Token.rbracket cs rfl h
      rw [if_neg h7] at h
      by_cases h8 : c = ';'
      · rw [if_pos h8] at h
        exact hcons Token.semi cs rfl h
      rw [if_neg h8] at h
      by_cases h9 : isIdentStart c = true
      · rw [if_pos h9] at h
        refine hcons _ _ ?_ h
        show wfWordChars (c :: cs.takeWhile isIdentChar) = true
        rw [wfWordChars]
        simp only [Bool.and_eq_true, List.all_eq_true]
        exact ⟨h9, fun x hx2 => List.mem_takeWhile_imp hx2⟩
      rw [if_neg h9] at h
      by_cases h10 : c.isDigit = true
      · rw [if_pos h10] at h
        refine hcons _ _ ?_ h
        show wfNumChars (c :: cs.takeWhile Char.isDigit) = true
        rw [wfNumChars]
        simp only [Bool.and_eq_true, List.all_eq_true]
        exact ⟨h10, fun x hx2 => List.mem_takeWhile_imp hx2⟩
      rw [if_neg h10] at h
      by_cases h11 : (c = squote || c = '"') = true
      · rw [if_pos h11] at h
        by_cases h12 : (cs.dropWhile (fun d => !isStrStop d)).head? = some c
        · rw [if_pos h12] at h
          refine hcons _ _ ?_ h
          show wfStrLit (String.mk (cs.takeWhile (fun d => !isStrStop d))) = true
          rw [wfStrLit]
          simp only [List.all_eq_true]
          intro x hx2
          have hx3 := List.mem_takeWhile_imp hx2
          simpa using hx3
        · rw [if_neg h12] at h
          exact Except.noConfusion h
      · rw [if_neg h11] at h
        exact Except.noConfusion h

/-! ## Well-formedness of parser output -/

theorem ok_pair_inj {ε A B : Type} {a1 a2 : A} {b1 b2 : B}
    (h : (Except.ok (a1, b1) : Except ε (A × B)) = .ok (a2, b2)) :
    a1 = a2 ∧ b1 = b2 := by
  have h2 := Except.ok.inj h
  exact ⟨congrArg Prod.fst h2, congrArg Prod.snd h2⟩

theorem parsePrimary_wf :
    ∀ {toks : List Token} {e : Expr} {r : List Token},
      (∀ t ∈ toks, wfTok t = true) → parsePrimary toks = .ok (e, r) →
      wfExpr e = true ∧ ∀ t ∈ r, wfTok t = true := by
  intro toks e r ht h
  cases toks with
  | nil => exact Except.noConfusion h
  | cons t ts =>
    have htw : wfTok t = true := ht t (by simp)
    have hts : ∀ t2 ∈ ts, wfTok t2 = true := fun t2 h2 => ht t2 (by simp [h2])
    cases t with
    | word s =>
      simp only [parsePrimary] at h
      by_cases hs : s = "import"
      · rw [if_pos hs] at h
        exact Except.noConfusion h
      · rw [if_neg hs] at h
        obtain ⟨he, hr⟩ := ok_pair_inj h
        subst he; subst hr
        refine ⟨?_, hts⟩
        rw [wfExpr, wfIdent]
        simp only [Bool.and_eq_true, Bool.not_eq_true', beq_eq_false_iff_ne]
        exact ⟨htw, hs⟩
    | strTok s =>
      obtain ⟨he, hr⟩ := ok_pair_inj h
      subst he; subst hr
      exact ⟨htw, hts⟩
    | numTok s =>
      obtain ⟨he, hr⟩ := ok_pair_inj h
      subst he; subst hr
      exact ⟨htw, hts⟩
    | dot => exact Except.noConfusion h
    | comma => exact Except.noConfusion h
    | lparen => exact Except.noConfusion h
    | rparen => exact Except.noConfusion h
    | lbracket => exact Except.noConfusion h
    | rbracket => exact Except.noConfusion h
    | semi => exact Except.noConfusion h

theorem parse_wf :
    ∀ fuel : Nat,
      (∀ (toks : List Token) (e : Expr) (r : List Token),
        (∀ t ∈ toks, wfTok t = true) → parseExpr fuel toks = .ok (e, r) →
        wfExpr e = true ∧ ∀ t ∈ r, wfTok t = true) ∧
      (∀ (base : Expr) (toks : List Token) (e : Expr) (r : List Token),
        wfExpr base = true → (∀ t ∈ toks, wfTok t = true) →
        parseSuffixes fuel base toks = .ok (e, r) →
        wfExpr e = true ∧ ∀ t ∈ r, wfTok t = true) ∧
      (∀ (toks : List Token) (args : ExprList) (r : List Token),
        (∀ t ∈ toks, wfTok t = true) → parseArgs fuel toks = .ok (args, r) →
        wfArgs args = true ∧ ∀ t ∈ r, wfTok t = true) ∧
      (∀ (e0 : Expr) (toks : List Token) (args : ExprList) (r : List Token),
        wfExpr e0 = true → (∀ t ∈ toks, wfTok t = true) →
        parseArgsMore fuel e0 toks = .ok (args, r) →
        wfArgs args = true ∧ ∀ t ∈ r, wfTok t = true) := by
  intro fuel
  induction fuel with
  | zero =>
    exact ⟨fun _ _ _ _ h => Except.noConfusion h,
      fun _ _ _ _ _ _ h => Except.noConfusion h,
      fun _ _ _ _ h => Except.noConfusion h,
      fun _ _ _ _ _ _ h => Except.noConfusion h⟩
  | succ fuel ih =>
    obtain ⟨ihPE, ihPS, ihPA, ihPAM⟩ := ih
    refine ⟨?_, ?_, ?_, ?_⟩
    · intro toks e r ht h
      rw [parseExpr_succ] at h
      obtain ⟨x, hprim, hsuf⟩ := bind_eq_ok h
      obtain ⟨xe, xr⟩ := x
      obtain ⟨hwx, hwr⟩ := parsePrimary_wf ht hprim
      exact ihPS xe xr e r hwx hwr hsuf
    · intro base toks e r hb ht h
      have hstopcase : ∀ (tk : List Token), (∀ t2 ∈ tk, wfTok t2 = true) →
          (Except.ok (base, tk) : Except ParseError (Expr × List Token)) = .ok (e, r) →
          wfExpr e = true ∧ ∀ t2 ∈ r, wfTok t2 = true := by
        intro tk htk h2
        obtain ⟨he, hr⟩ := ok_pair_inj h2
        subst he; subst hr
        exact ⟨hb, htk⟩
      cases toks with
      | nil => exact hstopcase [] ht h
      | cons t ts =>
        have hts : ∀ t2 ∈ ts, wfTok t2 = true := fun t2 h2 => ht t2 (by simp [h2])
        cases t with
        | dot =>
          cases ts with
          | nil => exact hstopcase [Token.dot] ht h
          | cons t2 ts2 =>
            have hts2 : ∀ t3 ∈ ts2, wfTok t3 = true := fun t3 h3 => hts t3 (by simp [h3])
            cases t2 with
            | word p =>
              rw [parseSuffixes_dot] at h
              by_cases hp : p = "import"
              · rw [if_pos hp] at h
                exact Except.noConfusion h
              · rw [if_neg hp] at h
                refine ihPS _ ts2 e r ?_ hts2 h
                rw [wfExpr]
                simp only [Bool.and_eq_true, Bool.or_eq_true]
                refine ⟨⟨hb, ?_⟩, .inr rfl⟩
                rw [wfExpr, wfIdent]
                simp only [Bool.and_eq_true, Bool.not_eq_true', beq_eq_false_iff_ne]
                exact ⟨hts (.word p) (by simp), hp⟩
            | strTok s => exact hstopcase _ ht h
            | numTok s => exact hstopcase _ ht h
            | dot => exact hstopcase _ ht h
            | comma => exact hstopcase _ ht h
            | lparen => exact hstopcase _ ht h
            | rparen => exact hstopcase _ ht h
            | lbracket => exact hstopcase _ ht h
            | rbracket => exact hstopcase _ ht h
            | semi => exact hstopcase _ ht h
        | lbracket =>
          rw [parseSuffixes_lbracket] at h
          obtain ⟨x, hx, h2⟩ := bind_eq_ok h
          obtain ⟨xe, xr⟩ := x
          obtain ⟨hwx, hwr⟩ := ihPE ts xe xr hts hx
          cases xr with
          | nil => exact Except.noConfusion h2
          | cons t2 r2 =>
            have hwr2 : ∀ t3 ∈ r2, wfTok t3 = true := fun t3 h3 => hwr t3 (by simp [h3])
            cases t2 with
            | rbracket =>
              have h3 : parseSuffixes fuel (.member base xe true) r2 = .ok (e, r) := h2
              refine ihPS _ r2 e r ?_ hwr2 h3
              rw [wfExpr]
              simp only [Bool.and_eq_true, Bool.or_eq_true]
              exact ⟨⟨hb, hwx⟩, .inl trivial⟩
            | word s => exact Except.noConfusion h2
            | strTok s => exact Except.noConfusion h2
            | numTok s => exact Except.noConfusion h2
            | dot => exact Except.noConfusion h2
            | comma => exact Except.noConfusion h2
            | lparen => exact Except.noConfusion h2
            | rparen => exact Except.noConfusion h2
            | lbracket => exact Except.noConfusion h2
            | semi => exact Except.noConfusion h2
        | lparen =>
          rw [parseSuffixes_lparen] at h
          obtain ⟨x, hx, h2⟩ := bind_eq_ok h
          obtain ⟨xa, xr⟩ := x
          obtain ⟨hwx, hwr⟩ := ihPA ts xa xr hts hx
          cases xr with
          | nil => exact Except.noConfusion h2
          | cons t2 r2 =>
            have hwr2 : ∀ t3 ∈ r2, wfTok t3 = true := fun t3 h3 => hwr t3 (by simp [h3])
            cases t2 with
            | rparen =>
              have h3 : parseSuffixes fuel (.call base xa) r2 = .ok (e, r) := h2
              refine ihPS _ r2 e r ?_ hwr2 h3
              rw [wfExpr]
              simp only [Bool.and_eq_true]
              exact ⟨hb, hwx⟩
            | word s => exact Except.noConfusion h2
            | strTok s => exact Except.noConfusion h2
            | numTok s => exact Except.noConfusion h2
            | dot => exact Except.noConfusion h2
            | comma => exact Except.noConfusion h2
            | lparen => exact Except.noConfusion h2
            | rbracket => exact Except.noConfusion h2
            | lbracket => exact Except.noConfusion h2
            | semi => exact Except.noConfusion h2
        | word s => exact hstopcase _ ht h
        | strTok s => exact hstopcase _ ht h
        | numTok s => exact hstopcase _ ht h
        | comma => exact hstopcase _ ht h
        | rparen => exact hstopcase _ ht h
        | rbracket => exact hstopcase _ ht h
        | semi => exact hstopcase _ ht h
    · intro toks args r ht h
      have hdefault : ∀ (toks2 : List Token), (∀ t ∈ toks2, wfTok t = true) →
          ((parseExpr fuel toks2 >>= fun x => parseArgsMore fuel x.1 x.2) =
            .ok (args, r)) →
          wfArgs args = true ∧ ∀ t ∈ r, wfTok t = true := by
        intro toks2 ht2 h2
        obtain ⟨x, hx, h3⟩ := bind_eq_ok h2
        obtain ⟨xe, xr⟩ := x
        obtain ⟨hwx, hwr⟩ := ihPE toks2 xe xr ht2 hx
        exact ihPAM xe xr args r hwx hwr h3
      cases toks with
      | nil => exact hdefault [] ht h
      | cons t ts =>
        cases t with
        | rparen =>
          obtain ⟨ha, hr⟩ := ok_pair_inj h
          subst ha; subst hr
          exact ⟨rfl, ht⟩
        | word s => exact hdefault _ ht h
        | strTok s => exact hdefault _ ht h
        | numTok s => exact hdefault _ ht h
        | dot => exact hdefault _ ht h
        | comma => exact hdefault _ ht h
        | lparen => exact hdefault _ ht h
        | lbracket => exact hdefault _ ht h
        | rbracket => exact hdefault _ ht h
        | semi => exact hdefault _ ht h
    · intro e0 toks args r he0 ht h
      cases toks with
      | nil =>
        obtain ⟨ha, hr⟩ := ok_pair_inj h
        subst ha; subst hr
        refine ⟨?_, ht⟩
        show (wfExpr e0 && wfArgs ExprList.nil) = true
        rw [he0]
        rfl
      | cons t ts =>
        have hts : ∀ t2 ∈ ts, wfTok t2 = true := fun t2 h2 => ht t2 (by simp [h2])
        have hdef : (Except.ok (ExprList.cons e0 .nil, t :: ts) :
            Except ParseError (ExprList × List Token)) = .ok (args, r) →
            wfArgs args = true ∧ ∀ t2 ∈ r, wfTok t2 = true := by
          intro h2
          obtain ⟨ha, hr⟩ := ok_pair_inj h2
          subst ha; subst hr
          refine ⟨?_, ht⟩
          show (wfExpr e0 && wfArgs ExprList.nil) = true
          rw [he0]
          rfl
        cases t with
        | comma =>
          rw [parseArgsMore_comma] at h
          obtain ⟨x, hx, h2⟩ := bind_eq_ok h
          obtain ⟨xe, xr⟩ := x
          obtain ⟨hwx, hwr⟩ := ihPE ts xe xr hts hx
          have h2b : (parseArgsMore fuel xe xr >>= fun y =>
              Except.ok (ExprList.cons e0 y.1, y.2)) = .ok (args, r) := h2
          obtain ⟨y, hy, h3⟩ := bind_eq_ok h2b
          obtain ⟨ya, yr⟩ := y
          obtain ⟨hwy, hwyr⟩ := ihPAM xe xr ya yr hwx hwr hy
          have h4 : (Except.ok (ExprList.cons e0 ya, yr) :
              Except ParseError (ExprList × List Token)) = .ok (args, r) := h3
          obtain ⟨ha, hr⟩ := ok_pair_inj h4
          subst ha; subst hr
          refine ⟨?_, hwyr⟩
          show (wfExpr e0 && wfArgs ya) = true
          rw [he0, hwy]
          rfl
        | word s => exact hdef h
        | strTok s => exact hdef h
        | numTok s => exact hdef h
        | dot => exact hdef h
        | rparen => exact hdef h
        | lparen => exact hdef h
        | lbracket => exact hdef h
        | rbracket => exact hdef h
        | semi => exact hdef h

theorem markDirective_wf {e : Expr} (he : wfExpr e = true) :
    wfStmt (markDirective (.exprStmt e none)) = true := by
  cases e with
  | lit v =>
    cases v with
    | str s =>
      show wfStmt (.exprStmt (.lit (.str s)) (some s)) = true
      rw [wfStmt]
      simp only [Bool.and_eq_true]
      exact ⟨he, by simp [dirOK, strLitVal?]⟩
    | num r =>
      show wfStmt (.exprStmt (.lit (.num r)) none) = true
      rw [wfStmt]
      simp only [Bool.and_eq_true]
      exact ⟨he, rfl⟩
  | ident n =>
    show wfStmt (.exprStmt (.ident n) none) = true
    rw [wfStmt]
    simp only [Bool.and_eq_true]
    exact ⟨he, rfl⟩
  | member o p c =>
    show wfStmt (.exprStmt (.member o p c) none) = true
    rw [wfStmt]
    simp only [Bool.and_eq_true]
    exact ⟨he, rfl⟩
  | call f a =>
    show wfStmt (.exprStmt (.call f a) none) = true
    rw [wfStmt]
    simp only [Bool.and_eq_true]
    exact ⟨he, rfl⟩

theorem parseExprStmt_wf {fuel : Nat} {toks : List Token} {s : Stmt} {r : List Token}
    (ht : ∀ t ∈ toks, wfTok t = true) (h : parseExprStmt fuel toks = .ok (s, r)) :
    wfStmt (markDirective s) = true ∧ ∀ t ∈ r, wfTok t = true := by
  have h2 : (parseExpr fuel toks >>= fun x =>
      match x.2 with
      | Token.semi :: r2 => Except.ok (Stmt.exprStmt x.1 none, r2)
      | _ => Except.error ⟨"parse: expected semicolon"⟩) = .ok (s, r) := h
  obtain ⟨x, hx, h3⟩ := bind_eq_ok h2
  obtain ⟨xe, xr⟩ := x
  obtain ⟨hwx, hwr⟩ := (parse_wf fuel).1 toks xe xr ht hx
  cases xr with
  | nil => exact Except.noConfusion h3
  | cons t2 r2 =>
    have hwr2 : ∀ t3 ∈ r2, wfTok t3 = true := fun t3 hm => hwr t3 (by simp [hm])
    cases t2 with
    | semi =>
      have h4 : (Except.ok (Stmt.exprStmt xe none, r2) :
          Except ParseError (Stmt × List Token)) = .ok (s, r) := h3
      obtain ⟨hs, hr⟩ := ok_pair_inj h4
      subst hs; subst hr
      exact ⟨markDirective_wf hwx, hwr2⟩
    | word s2 => exact Except.noConfusion h3
    | strTok s2 => exact Except.noConfusion h3
    | numTok s2 => exact Except.noConfusion h3
    | dot => exact Except.noConfusion h3
    | comma => exact Except.noConfusion h3
    | lparen => exact Except.noConfusion h3
    | rparen => exact Except.noConfusion h3
    | lbracket => exact Except.noConfusion h3
    | rbracket => exact Except.noConfusion h3

theorem parseImportTail_wf {toks : List Token} {s : Stmt} {r : List Token}
    (ht : ∀ t ∈ toks, wfTok t = true) (h : parseImportTail toks = .ok (s, r)) :
    wfStmt (markDirective s) = true ∧ ∀ t ∈ r, wfTok t = true := by
  cases toks with
  | nil => exact Except.noConfusion h
  | cons t1 ts1 =>
    cases t1 <;> try exact Except.noConfusion h
    rename_i l
    cases ts1 with
    | nil => exact Except.noConfusion h
    | cons t2 ts2 =>
      cases t2 <;> try exact Except.noConfusion h
      rename_i frm
      cases ts2 with
      | nil => exact Except.noConfusion h
      | cons t3 ts3 =>
        cases t3 <;> try exact Except.noConfusion h
        rename_i src
        cases ts3 with
        | nil => exact Except.noConfusion h
        | cons t4 ts4 =>
          cases t4 <;> try exact Except.noConfusion h
          have h2 : (if l = "import" then
              (Except.error ⟨"parse: bad import"⟩ : Except ParseError (Stmt × List Token))
            else if frm = "from" then Except.ok (Stmt.importDecl l src, ts4)
            else Except.error ⟨"parse: bad import"⟩) = .ok (s, r) := h
          by_cases hl : l = "import"
          · rw [if_pos hl] at h2
            exact Except.noConfusion h2
          · rw [if_neg hl] at h2
            by_cases hf : frm = "from"
            · rw [if_pos hf] at h2
              obtain ⟨hs, hr⟩ := ok_pair_inj h2
              subst hs; subst hr
              refine ⟨?_, fun t2 hm => ht t2 (by simp [hm])⟩
              show wfStmt (.importDecl l src) = true
              rw [wfStmt]
              simp only [Bool.and_eq_true]
              refine ⟨?_, ht (.strTok src) (by simp)⟩
              rw [wfIdent]
              simp only [Bool.and_eq_true, Bool.not_eq_true', beq_eq_false_iff_ne]
              exact ⟨ht (.word l) (by simp), hl⟩
            · rw [if_neg hf] at h2
              exact Except.noConfusion h2

theorem parseStmt_wf {fuel : Nat} {toks : List Token} {s : Stmt} {r : List Token}
    (ht : ∀ t ∈ toks, wfTok t = true) (h : parseStmt fuel toks = .ok (s, r)) :
    wfStmt (markDirective s) = true ∧ ∀ t ∈ r, wfTok t = true := by
  cases toks with
  | nil => exact parseExprStmt_wf ht h
  | cons t ts =>
    have hts : ∀ t2 ∈ ts, wfTok t2 = true := fun t2 h2 => ht t2 (by simp [h2])
    cases t with
    | semi =>
      obtain ⟨hs, hr⟩ := ok_pair_inj h
      subst hs; subst hr
      exact ⟨rfl, hts⟩
    | word s2 =>
      rw [parseStmt_word] at h
      by_cases hs2 : s2 = "import"
      · rw [if_pos hs2] at h
        exact parseImportTail_wf hts h
      · rw [if_neg hs2] at h
        exact parseExprStmt_wf ht h
    | strTok s2 => exact parseExprStmt_wf ht h
    | numTok s2 => exact parseExprStmt_wf ht h
    | dot => exact parseExprStmt_wf ht h
    | comma => exact parseExprStmt_wf ht h
    | lparen => exact parseExprStmt_wf ht h
    | rparen => exact parseExprStmt_wf ht h
    | lbracket => exact parseExprStmt_wf ht h
    | rbracket => exact parseExprStmt_wf ht h

theorem parseProgramAux_wf :
    ∀ (fuel : Nat) (toks : List Token) (ps : List Stmt),
      (∀ t ∈ toks, wfTok t = true) → parseProgramAux fuel toks = .ok ps →
      wfProgram (markDirectives ps) = true := by
  intro fuel
  induction fuel with
  | zero =>
    intro toks ps ht h
    exact Except.noConfusion h
  | succ fuel ih =>
    intro toks ps ht h
    cases toks with
    | nil =>
      have hps : ps = [] := (Except.ok.inj h).symm
      subst hps
      rfl
    | cons t ts =>
      rw [parseProgramAux_step fuel _ (by simp)] at h
      obtain ⟨x, hx, h2⟩ := bind_eq_ok h
      obtain ⟨xs, xr⟩ := x
      obtain ⟨hws, hwr⟩ := parseStmt_wf ht hx
      obtain ⟨ps0, hps0, hps⟩ := map_eq_ok h2
      subst hps
      have hrec := ih xr ps0 hwr hps0
      show wfProgram (markDirective xs :: markDirectives ps0) = true
      rw [wfProgram, List.all_cons]
      simp only [Bool.and_eq_true]
      exact ⟨hws, hrec⟩

/-- Every tree the modelled parser produces is well formed. -/
theorem acornParse_wf {x : String} {p : Program} (h : acornParse x = .ok p) :
    wfProgram p = true := by
  have h2 : (lex x >>= fun toks => parseProgramAux (3 * toks.length + 5) toks >>=
      fun raw => pure (markDirectives raw)) = .ok p := h
  obtain ⟨toks, hlex, h3⟩ := bind_eq_ok h2
  obtain ⟨raw, hparse, h4⟩ := bind_eq_ok h3
  have hp : p = markDirectives raw := (Except.ok.inj h4).symm
  subst hp
  exact parseProgramAux_wf _ toks raw (lexChars_wf _ _ toks hlex) hparse

/-! ## The tree rewriter preserves well-formedness -/

theorem exprName?_some {o : Expr} {n : String} (h : exprName? o = some n) :
    o = .ident n := by
  cases o with
  | ident m =>
    have hm : m = n := Option.some.inj h
    rw [hm]
  | lit v => exact Option.noConfusion h
  | member a b c => exact Option.noConfusion h
  | call f a => exact Option.noConfusion h

theorem wfArgs_eraseIdx : ∀ (a : ExprList) (i : Nat), wfArgs a = true →
    wfArgs (a.eraseIdx i) = true
  | .nil, _ => fun h => h
  | .cons e t, 0 => by
    intro h
    rw [wfArgs] at h
    simp only [Bool.and_eq_true] at h
    exact h.2
  | .cons e t, i + 1 => by
    intro h
    rw [wfArgs] at h
    simp only [Bool.and_eq_true] at h
    show (wfExpr e && wfArgs (t.eraseIdx i)) = true
    rw [h.1, wfArgs_eraseIdx t i h.2]
    rfl

theorem callExpressionRule_red (obj prop : Expr) (computed : Bool) (a : ExprList) :
    callExpressionRule (.call (.member obj prop computed) a) =
      (if (exprName? obj == some "assert")
          && (exprName? prop).any (fun n => assertProperties.contains n) then
        if a.length == 2 then
          .call (.member (setName "console" obj) (setName "log" prop) computed)
            (a.eraseIdx 1)
        else .call (.member obj prop computed) a
      else .call (.member obj prop computed) a) := rfl

theorem callExpressionRule_wf {c : Expr} {a : ExprList}
    (h : wfExpr (.call c a) = true) :
    wfExpr (callExpressionRule (.call c a)) = true := by
  have hargs : wfArgs a = true := by
    rw [wfExpr] at h
    simp only [Bool.and_eq_true] at h
    exact h.2
  cases c with
  | member obj prop computed =>
    rw [callExpressionRule_red]
    by_cases h1 : ((exprName? obj == some "assert")
        && (exprName? prop).any (fun n => assertProperties.contains n)) = true
    · rw [if_pos h1]
      by_cases h2 : (a.length == 2) = true
      · rw [if_pos h2]
        simp only [Bool.and_eq_true, beq_iff_eq] at h1
        obtain ⟨ho, hp⟩ := h1
        have ho2 := exprName?_some ho
        subst ho2
        have hp2 : ∃ n, exprName? prop = some n := by
          cases hq : exprName? prop with
          | none => rw [hq] at hp; exact Bool.noConfusion hp
          | some n => exact ⟨n, rfl⟩
        obtain ⟨n, hn⟩ := hp2
        have hpid := exprName?_some hn
        subst hpid
        show (wfExpr (.member (.ident "console") (.ident "log") computed) &&
          wfArgs (a.eraseIdx 1)) = true
        rw [wfArgs_eraseIdx a 1 hargs]
        rw [wfExpr]
        cases computed <;> simp [wfExpr, wfIdent, wfWord, wfWordChars,
          isIdentExpr, isIdentStart, isIdentChar]
      · rw [if_neg h2]
        exact h
    · rw [if_neg h1]
      exact h
  | ident n => exact h
  | lit v => exact h
  | call f a2 => exact h

mutual
theorem walkExpr_wf : ∀ e : Expr, wfExpr e = true → wfExpr (walkExpr e) = true
  | .ident n => fun h => h
  | .lit v => fun h => h
  | .member o p computed => by
    intro h
    obtain ⟨hwo, hwp, hcp⟩ := wfExpr_member_parts h
    cases computed with
    | true =>
      show wfExpr (.member (walkExpr o) (walkExpr p) true) = true
      rw [wfExpr]
      simp only [Bool.and_eq_true, Bool.or_eq_true]
      exact ⟨⟨walkExpr_wf o hwo, walkExpr_wf p hwp⟩, .inl trivial⟩
    | false =>
      show wfExpr (.member (walkExpr o) p false) = true
      rw [wfExpr]
      simp only [Bool.and_eq_true, Bool.or_eq_true]
      have hip : isIdentExpr p = true := by
        rcases hcp with hc | hip
        · exact Bool.noConfusion hc
        · exact hip
      exact ⟨⟨walkExpr_wf o hwo, hwp⟩, .inr hip⟩
  | .call f args => by
    intro h
    rw [wfExpr] at h
    simp only [Bool.and_eq_true] at h
    show wfExpr (callExpressionRule (.call (walkExpr f) (walkExprList args))) = true
    apply callExpressionRule_wf
    rw [wfExpr]
    simp only [Bool.and_eq_true]
    exact ⟨walkExpr_wf f h.1, walkExprList_wf args h.2⟩
theorem walkExprList_wf : ∀ a : ExprList, wfArgs a = true →
    wfArgs (walkExprList a) = true
  | .nil => fun h => h
  | .cons e t => by
    intro h
    rw [wfArgs] at h
    simp only [Bool.and_eq_true] at h
    show (wfExpr (walkExpr e) && wfArgs (walkExprList t)) = true
    rw [walkExpr_wf e h.1, walkExprList_wf t h.2]
    rfl
end

theorem callExpressionRule_noStr (c : Expr) (a : ExprList) :
    strLitVal? (callExpressionRule (.call c a)) = none := by
  cases c with
  | member obj prop computed =>
    rw [callExpressionRule_red]
    split
    · split
      · rfl
      · rfl
    · rfl
  | ident n => rfl
  | lit v => rfl
  | call f a2 => rfl

theorem strLitVal?_walkExpr : ∀ e : Expr, strLitVal? (walkExpr e) = strLitVal? e
  | .ident n => rfl
  | .lit v => rfl
  | .member o p c => rfl
  | .call f a =>
    callExpressionRule_noStr (walkExpr f) (walkExprList a)

theorem walkStmt_wf (s : Stmt) (h : wfStmt s = true) : wfStmt (walkStmt s) = true := by
  cases s with
  | importDecl l src =>
    show wfStmt (importDeclarationRule (.importDecl l src)) = true
    have hred : importDeclarationRule (.importDecl l src) =
        (if importSourceList.contains src then .emptyStmt else .importDecl l src) := rfl
    rw [hred]
    split
    · rfl
    · exact h
  | emptyStmt => exact h
  | exprStmt e d =>
    rw [wfStmt] at h
    simp only [Bool.and_eq_true] at h
    show wfStmt (expressionStatementRule (.exprStmt (walkExpr e) d)) = true
    have hred : expressionStatementRule (.exprStmt (walkExpr e) d) =
        (if d = some "use strict" then .emptyStmt else .exprStmt (walkExpr e) d) := rfl
    rw [hred]
    split
    · rfl
    · rw [wfStmt]
      simp only [Bool.and_eq_true]
      refine ⟨walkExpr_wf e h.1, ?_⟩
      show (d == strLitVal? (walkExpr e)) = true
      rw [strLitVal?_walkExpr]
      exact h.2

theorem walkProgram_wf : ∀ (p : Program), wfProgram p = true →
    wfProgram (walkProgram p) = true
  | [] => fun _ => rfl
  | s :: ss => by
    intro h
    simp only [wfProgram, List.all_cons, Bool.and_eq_true] at h
    show wfProgram (walkStmt s :: walkProgram ss) = true
    rw [wfProgram, List.all_cons]
    simp only [Bool.and_eq_true]
    exact ⟨walkStmt_wf s h.1, walkProgram_wf ss h.2⟩

/-! ## Lines of generated text -/

theorem wfIdent_no_nl {n : String} (h : wfIdent n = true) :
    ∀ c ∈ n.data, c ≠ '\n' := by
  obtain ⟨c0, cs, hnd, hc0, hcs, _⟩ := wfIdent_parts h
  rw [hnd]
  intro c hc
  rcases List.mem_cons.mp hc with rfl | hc2
  · exact ne_of_pred hc0 (by decide)
  · exact ne_of_pred (hcs c hc2) (by decide)

theorem wfStrLit_no_nl {s : String} (h : wfStrLit s = true) :
    ∀ c ∈ s.data, c ≠ '\n' := by
  intro c hc he
  have hs := wfStrLit_stopFalse h c hc
  subst he
  rw [show isStrStop '\n' = true from by decide] at hs
  exact Bool.noConfusion hs

theorem wfNum_no_nl {r : String} (h : wfNum r = true) :
    ∀ c ∈ r.data, c ≠ '\n' := by
  obtain ⟨c0, cs, hnd, hc0, hcs⟩ := wfNum_parts h
  rw [hnd]
  intro c hc
  rcases List.mem_cons.mp hc with rfl | hc2
  · exact ne_of_pred hc0 (by decide)
  · exact ne_of_pred (hcs c hc2) (by decide)

theorem litChars_no_nl {v : Lit} (h : wfLit v = true) :
    ∀ c ∈ litChars v, c ≠ '\n' := by
  cases v with
  | str s =>
    intro c hc
    have hc2 : c ∈ squote :: (s.data ++ [squote]) := hc
    rcases List.mem_cons.mp hc2 with rfl | hc3
    · decide
    · rcases List.mem_append.mp hc3 with hc4 | hc4
      · exact wfStrLit_no_nl h c hc4
      · rw [List.mem_singleton] at hc4
        subst hc4
        decide
  | num r => exact wfNum_no_nl h

mutual
theorem exprChars_no_nl : ∀ e : Expr, wfExpr e = true → ∀ c ∈ exprChars e, c ≠ '\n'
  | .ident n => fun h c hc => wfIdent_no_nl (by rw [wfExpr] at h; exact h) c hc
  | .lit v => fun h => litChars_no_nl (by rw [wfExpr] at h; exact h)
  | .member o p computed => by
    intro h c hc
    obtain ⟨hwo, hwp, _⟩ := wfExpr_member_parts h
    cases computed with
    | true =>
      have hc2 : c ∈ exprChars o ++ '[' :: (exprChars p ++ [']']) := hc
      rcases List.mem_append.mp hc2 with h3 | h3
      · exact exprChars_no_nl o hwo c h3
      · rcases List.mem_cons.mp h3 with rfl | h4
        · decide
        · rcases List.mem_append.mp h4 with h5 | h5
          · exact exprChars_no_nl p hwp c h5
          · rw [List.mem_singleton] at h5
            subst h5
            decide
    | false =>
      have hc2 : c ∈ exprChars o ++ '.' :: exprChars p := hc
      rcases List.mem_append.mp hc2 with h3 | h3
      · exact exprChars_no_nl o hwo c h3
      · rcases List.mem_cons.mp h3 with rfl | h4
        · decide
        · exact exprChars_no_nl p hwp c h4
  | .call f args => by
    intro h c hc
    rw [wfExpr] at h
    simp only [Bool.and_eq_true] at h
    have hc2 : c ∈ exprChars f ++ '(' :: (argsChars args ++ [')']) := hc
    rcases List.mem_append.mp hc2 with h3 | h3
    · exact exprChars_no_nl f h.1 c h3
    · rcases List.mem_cons.mp h3 with rfl | h4
      · decide
      · rcases List.mem_append.mp h4 with h5 | h5
        · exact argsChars_no_nl args h.2 c h5
        · rw [List.mem_singleton] at h5
          subst h5
          decide
theorem argsChars_no_nl : ∀ a : ExprList, wfArgs a = true → ∀ c ∈ argsChars a, c ≠ '\n'
  | .nil => by
    intro _ c hc
    cases hc
  | .cons e .nil => by
    intro h c hc
    rw [wfArgs] at h
    simp only [Bool.and_eq_true] at h
    exact exprChars_no_nl e h.1 c hc
  | .cons e (.cons e2 t) => by
    intro h c hc
    rw [wfArgs] at h
    simp only [Bool.and_eq_true] at h
    have hc2 : c ∈ exprChars e ++ ',' :: ' ' :: argsChars (.cons e2 t) := hc
    rcases List.mem_append.mp hc2 with h3 | h3
    · exact exprChars_no_nl e h.1 c h3
    · rcases List.mem_cons.mp h3 with rfl | h4
      · decide
      · rcases List.mem_cons.mp h4 with rfl | h5
        · decide
        · exact argsChars_no_nl (.cons e2 t) h.2 c h5
end

theorem stmtChars_no_nl (s : Stmt) (h : wfStmt s = true) :
    ∀ c ∈ stmtChars s, c ≠ '\n' := by
  cases s with
  | emptyStmt =>
    intro c hc
    rw [show stmtChars .emptyStmt = [';'] from rfl, List.mem_singleton] at hc
    subst hc
    decide
  | importDecl l src =>
    rw [wfStmt] at h
    simp only [Bool.and_eq_true] at h
    intro c hc
    rcases List.mem_append.mp hc with h1 | h1
    · rcases List.mem_append.mp h1 with h2 | h2
      · rcases List.mem_append.mp h2 with h3 | h3
        · exact (by decide : ∀ x ∈ ("import ").data, x ≠ '\n') c h3
        · exact wfIdent_no_nl h.1 c h3
      · exact (by decide : ∀ x ∈ (" from ").data, x ≠ '\n') c h2
    · rcases List.mem_cons.mp h1 with rfl | h2
      · decide
      · rcases List.mem_append.mp h2 with h3 | h3
        · exact wfStrLit_no_nl h.2 c h3
        · exact (by decide : ∀ x ∈ [squote, ';'], x ≠ '\n') c h3
  | exprStmt e d =>
    rw [wfStmt] at h
    simp only [Bool.and_eq_true] at h
    intro c hc
    rcases List.mem_append.mp hc with h1 | h1
    · exact exprChars_no_nl e h.1 c h1
    · exact (by decide : ∀ x ∈ [';'], x ≠ '\n') c h1

def isEmptyStmt : Stmt → Bool
  | .emptyStmt => true
  | _ => false

theorem exprChars_ne_nil : ∀ e : Expr, wfExpr e = true → exprChars e ≠ []
  | .ident n => by
    intro h
    rw [wfExpr] at h
    obtain ⟨c, cs, hnd, _, _, _⟩ := wfIdent_parts h
    show n.data ≠ []
    rw [hnd]
    simp
  | .lit (.str s) => by
    intro _
    show squote :: (s.data ++ [squote]) ≠ []
    simp
  | .lit (.num r) => by
    intro h
    rw [wfExpr, wfLit] at h
    obtain ⟨c, cs, hnd, _, _⟩ := wfNum_parts h
    show r.data ≠ []
    rw [hnd]
    simp
  | .member o p computed => by
    intro h
    obtain ⟨hwo, _, _⟩ := wfExpr_member_parts h
    have hno := exprChars_ne_nil o hwo
    cases computed with
    | true =>
      show exprChars o ++ '[' :: (exprChars p ++ [']']) ≠ []
      intro hE
      exact hno (List.append_eq_nil.mp hE).1
    | false =>
      show exprChars o ++ '.' :: exprChars p ≠ []
      intro hE
      exact hno (List.append_eq_nil.mp hE).1
  | .call f args => by
    intro h
    rw [wfExpr] at h
    simp only [Bool.and_eq_true] at h
    have hno := exprChars_ne_nil f h.1
    show exprChars f ++ '(' :: (argsChars args ++ [')']) ≠ []
    intro hE
    exact hno (List.append_eq_nil.mp hE).1

theorem stmtLine_ne_semi {s : Stmt} (h : wfStmt s = true)
    (hne : isEmptyStmt s = false) : String.mk (stmtChars s) ≠ ";" := by
  intro he
  have hd : stmtChars s = [';'] := congrArg String.data he
  have hlen := congrArg List.length hd
  cases s with
  | emptyStmt => exact Bool.noConfusion hne
  | importDecl l src =>
    rw [show stmtChars (.importDecl l src) = ("import ").data ++ l.data ++
      (" from ").data ++ squote :: (src.data ++ [squote, ';']) from rfl] at hlen
    simp only [List.length_append, List.length_cons, List.length_singleton,
      List.length_nil] at hlen
    omega
  | exprStmt e d =>
    rw [wfStmt] at h
    simp only [Bool.and_eq_true] at h
    rw [show stmtChars (.exprStmt e d) = exprChars e ++ [';'] from rfl] at hlen
    simp only [List.length_append, List.length_cons, List.length_singleton,
      List.length_nil] at hlen
    have hlz : 0 < (exprChars e).length :=
      List.length_pos.mpr (exprChars_ne_nil e h.1)
    omega

theorem filter_lines : ∀ (q : Program), wfProgram q = true →
    (q.map (fun s => String.mk (stmtChars s))).filter (fun l => l ≠ ";") =
      (q.filter (fun s => !isEmptyStmt s)).map (fun s => String.mk (stmtChars s))
  | [] => fun _ => rfl
  | s :: ss => by
    intro h
    simp only [wfProgram, List.all_cons, Bool.and_eq_true] at h
    have ih := filter_lines ss h.2
    cases hse : isEmptyStmt s with
    | true =>
      have hs : s = .emptyStmt := by
        cases s with
        | emptyStmt => rfl
        | importDecl l src => exact Bool.noConfusion hse
        | exprStmt e d => exact Bool.noConfusion hse
      subst hs
      rw [List.map_cons, List.filter_cons, List.filter_cons]
      rw [if_neg (by decide), if_neg (by decide)]
      exact ih
    | false =>
      have hne := stmtLine_ne_semi h.1 hse
      rw [List.map_cons, List.filter_cons, List.filter_cons]
      rw [if_pos (decide_eq_true hne), if_pos (by rw [hse]; rfl)]
      rw [List.map_cons, ih]

theorem generate_lines (q : Program) (h : wfProgram q = true) (hne : q ≠ []) :
    splitLines (generate q) = q.map (fun s => String.mk (stmtChars s)) := by
  apply splitLines_joinLines
  · simpa using hne
  · intro l hl c hc
    obtain ⟨s, hs, hl2⟩ := List.mem_map.mp hl
    subst hl2
    have hws : wfStmt s = true := by
      rw [wfProgram, List.all_eq_true] at h
      exact h s hs
    exact stmtChars_no_nl s hws c hc

/-- The Output Normalizer on generated well-formed text deletes exactly
the empty statements. -/
theorem normalizeGenerated_generate (q : Program) (h : wfProgram q = true) :
    normalizeGenerated (generate q) =
      generate (q.filter (fun s => !isEmptyStmt s)) := by
  cases q with
  | nil => rfl
  | cons s ss =>
    show joinLines ((splitLines (generate (s :: ss))).filter fun l => l ≠ ";") = _
    rw [generate_lines (s :: ss) h (by simp)]
    rw [filter_lines (s :: ss) h]
    rfl

theorem wfProgram_filter (q : Program) (h : wfProgram q = true) (p : Stmt → Bool) :
    wfProgram (q.filter p) = true := by
  rw [wfProgram, List.all_eq_true] at h ⊢
  intro s hs
  exact h s (List.mem_of_mem_filter hs)

/-! ## Pipeline characterizations -/

theorem rewriteEsbuild_ok {x : String} {p : Program} (h : acornParse x = .ok p) :
    rewriteEsbuild x = .ok (generate p) := by
  show (acornParse x >>= fun ast => pure (generate ast)) = _
  rw [h, ok_bind]
  rfl

theorem rewriteRolldown_ok {x : String} {p : Program} (h : acornParse x = .ok p) :
    rewriteRolldown x =
      .ok (generate ((walkProgram p).filter (fun s => !isEmptyStmt s))) := by
  show (acornParse x >>= fun ast =>
    pure (normalizeGenerated (generate (walkProgram ast)))) = _
  rw [h, ok_bind]
  show Except.ok (normalizeGenerated (generate (walkProgram p))) = _
  rw [normalizeGenerated_generate _ (walkProgram_wf p (acornParse_wf h))]

/-! ## The rewriter leaves no assert import behind -/

def isAssertImport : Stmt → Bool
  | .importDecl _ src => importSourceList.contains src
  | _ => false

theorem walkStmt_no_assertImport (s : Stmt) :
    isAssertImport (walkStmt s) = false := by
  cases s with
  | importDecl l src =>
    show isAssertImport (importDeclarationRule (.importDecl l src)) = false
    have hred : importDeclarationRule (.importDecl l src) =
        (if importSourceList.contains src then .emptyStmt else .importDecl l src) := rfl
    rw [hred]
    by_cases hc : importSourceList.contains src = true
    · rw [if_pos hc]
      rfl
    · rw [if_neg hc]
      show importSourceList.contains src = false
      exact Bool.eq_false_iff.mpr hc
  | emptyStmt => rfl
  | exprStmt e d =>
    show isAssertImport (expressionStatementRule (.exprStmt (walkExpr e) d)) = false
    have hred : expressionStatementRule (.exprStmt (walkExpr e) d) =
        (if d = some "use strict" then .emptyStmt else .exprStmt (walkExpr e) d) := rfl
    rw [hred]
    split
    · rfl
    · rfl

theorem walkProgram_no_assertImport (p : Program) :
    ∀ s ∈ walkProgram p, isAssertImport s = false := by
  intro s hs
  obtain ⟨s0, _, hs2⟩ := List.mem_map.mp hs
  subst hs2
  exact walkStmt_no_assertImport s0

def isMemberExpr : Expr → Bool
  | .member _ _ _ => true
  | _ => false

/-! ## Claims -/

/-- C1: for every call expression whose callee is a non-computed member
access `assert.<m>` with `<m>` one of `equal`, `strictEqual`,
`deepEqual` and exactly two arguments, the `CallExpression` rule turns
the callee object name into `console`, the member name into `log`, and
drops the second argument, leaving a one-argument call whose sole
argument is the original first argument. -/
theorem C1_assert_to_log (m : String) (a b : Expr) (hm : m ∈ assertProperties) :
    callExpressionRule
        (.call (.member (.ident "assert") (.ident m) false)
          (.cons a (.cons b .nil))) =
      .call (.member (.ident "console") (.ident "log") false) (.cons a .nil) := by
  fin_cases hm <;> rfl

theorem C1_assert_to_log_witness :
    "strictEqual" ∈ assertProperties ∧
    callExpressionRule
        (.call (.member (.ident "assert") (.ident "strictEqual") false)
          (.cons (.ident "x") (.cons (.lit (.num "1")) .nil))) =
      .call (.member (.ident "console") (.ident "log") false)
        (.cons (.ident "x") .nil) :=
  ⟨by decide, C1_assert_to_log "strictEqual" (.ident "x") (.lit (.num "1")) (by decide)⟩

/-- C5: a call through `assert.<m>` whose member name is not one of the
three listed ones, or whose argument count is not exactly two, is left
entirely unmodified by the `CallExpression` rule. -/
theorem C5_nonmatch_preserved (obj : Expr) (m : String) (computed : Bool)
    (args : ExprList) (h : m ∉ assertProperties ∨ args.length ≠ 2) :
    callExpressionRule (.call (.member obj (.ident m) computed) args) =
      .call (.member obj (.ident m) computed) args := by
  rw [callExpressionRule_red]
  rcases h with h | h
  · have hc : assertProperties.contains m = false := by
      cases hcm : assertProperties.contains m with
      | false => rfl
      | true => exact absurd (List.mem_of_elem_eq_true hcm) h
    rw [if_neg (by
      intro hcond
      rw [Bool.and_eq_true] at hcond
      have h2 : assertProperties.contains m = true := hcond.2
      rw [hc] at h2
      exact Bool.noConfusion h2)]
  · by_cases h1 : ((exprName? obj == some "assert")
        && (exprName? (Expr.ident m)).any (fun n => assertProperties.contains n)) = true
    · rw [if_pos h1, if_neg (by
        intro h2
        exact h (by simpa using h2))]
    · rw [if_neg h1]

theorem C5_nonmatch_preserved_witness :
    (callExpressionRule
        (.call (.member (.ident "assert") (.ident "strictEqual") false)
          (.cons (.ident "x") (.cons (.lit (.num "1"))
            (.cons (.lit (.str "msg")) .nil)))) =
      .call (.member (.ident "assert") (.ident "strictEqual") false)
        (.cons (.ident "x") (.cons (.lit (.num "1"))
          (.cons (.lit (.str "msg")) .nil)))) ∧
    (callExpressionRule
        (.call (.member (.ident "assert") (.ident "ok") false)
          (.cons (.ident "x") .nil)) =
      .call (.member (.ident "assert") (.ident "ok") false)
        (.cons (.ident "x") .nil)) :=
  ⟨C5_nonmatch_preserved (.ident "assert") "strictEqual" false _ (.inr (by decide)),
   C5_nonmatch_preserved (.ident "assert") "ok" false _ (.inl (by decide))⟩

/-- C3: an import from `assert` or `node:assert` is downgraded to the
empty-statement kind while any other import is kept; consequently no
statement of a rewritten program is an assert import, and reparsing the
final text of `rewriteRolldown` yields a program with no assert
import. -/
theorem C3_import_elision :
    (∀ (l src : String), src ∈ importSourceList →
      importDeclarationRule (.importDecl l src) = .emptyStmt) ∧
    (∀ (l src : String), src ∉ importSourceList →
      importDeclarationRule (.importDecl l src) = .importDecl l src) ∧
    (∀ (p : Program), ∀ s ∈ walkProgram p, isAssertImport s = false) ∧
    (∀ (x out : String) (p : Program), acornParse x = .ok p →
      rewriteRolldown x = .ok out →
      ∃ q, acornParse out = .ok q ∧ ∀ s ∈ q, isAssertImport s = false) := by
  refine ⟨?_, ?_, ?_, ?_⟩
  · intro l src hm
    fin_cases hm <;> rfl
  · intro l src h
    have hc : importSourceList.contains src = false := by
      cases hcm : importSourceList.contains src with
      | false => rfl
      | true => exact absurd (List.mem_of_elem_eq_true hcm) h
    have hred : importDeclarationRule (.importDecl l src) =
        (if importSourceList.contains src then .emptyStmt else .importDecl l src) := rfl
    rw [hred, if_neg (by
      intro hcc
      rw [hc] at hcc
      exact Bool.noConfusion hcc)]
  · exact fun p => walkProgram_no_assertImport p
  · intro x out p hp hout
    have hchar := rewriteRolldown_ok hp
    rw [hout] at hchar
    have hoeq : out = generate ((walkProgram p).filter fun s => !isEmptyStmt s) :=
      Except.ok.inj hchar
    subst hoeq
    have hwf : wfProgram ((walkProgram p).filter fun s => !isEmptyStmt s) = true :=
      wfProgram_filter _ (walkProgram_wf p (acornParse_wf hp)) _
    refine ⟨_, acornParse_generate _ hwf, ?_⟩
    intro s hs
    exact walkProgram_no_assertImport p s (List.mem_of_mem_filter hs)

theorem C3_import_elision_witness :
    (importDeclarationRule (.importDecl "assert" "assert") = .emptyStmt) ∧
    (importDeclarationRule (.importDecl "fs" "node:fs") = .importDecl "fs" "node:fs") ∧
    (∃ q, acornParse "" = .ok q ∧ ∀ s ∈ q, isAssertImport s = false) :=
  ⟨C3_import_elision.1 "assert" "assert" (by decide),
   C3_import_elision.2.1 "fs" "node:fs" (by decide),
   C3_import_elision.2.2.2 "import assert from \"assert\";" "" [.importDecl "assert" "assert"]
     rfl rfl⟩

/-- C4: an expression statement whose directive is exactly `use strict`
is downgraded to the empty-statement kind, every other expression
statement is left unchanged by the rule, and on an input whose first
statement is the `"use strict"` directive the rewritten output has no
directive line. -/
theorem C4_strict_directive :
    (∀ e : Expr, expressionStatementRule (.exprStmt e (some "use strict")) =
      .emptyStmt) ∧
    (∀ (e : Expr) (d : Option String), d ≠ some "use strict" →
      expressionStatementRule (.exprStmt e d) = .exprStmt e d) ∧
    rewriteRolldown "\"use strict\";\nf();" = .ok "f();" := by
  refine ⟨?_, ?_, rfl⟩
  · intro e
    have hred : expressionStatementRule (.exprStmt e (some "use strict")) =
        (if (some "use strict" : Option String) = some "use strict" then .emptyStmt
         else .exprStmt e (some "use strict")) := rfl
    rw [hred, if_pos rfl]
  · intro e d h
    have hred : expressionStatementRule (.exprStmt e d) =
        (if d = some "use strict" then .emptyStmt else .exprStmt e d) := rfl
    rw [hred, if_neg h]

theorem C4_strict_directive_witness :
    ((some "use other" : Option String) ≠ some "use strict") ∧
    expressionStatementRule (.exprStmt (.lit (.str "use other")) (some "use other")) =
      .exprStmt (.lit (.str "use other")) (some "use other") :=
  ⟨by decide, C4_strict_directive.2.1 (.lit (.str "use other")) (some "use other")
    (by decide)⟩

/-- C6: the three-line example input (assert import, `"use strict"`
directive, two-argument `assert.equal` call) rewrites to exactly the
single line `console.log(compute());`. -/
theorem C6_end_to_end :
    rewriteRolldown
        "import assert from \"assert\";\n\"use strict\";\nassert.equal(compute(), 42);" =
      .ok "console.log(compute());" := rfl

/-- C7: the normalize-only entry point is idempotent: regenerating text
it has produced is a fixed point. -/
theorem C7_normalize_idempotent (x y : String) (h : rewriteEsbuild x = .ok y) :
    rewriteEsbuild y = .ok y := by
  have h2 : (acornParse x >>= fun ast => pure (generate ast)) = .ok y := h
  obtain ⟨p, hp, h3⟩ := bind_eq_ok h2
  have hy : y = generate p := (Except.ok.inj h3).symm
  subst hy
  exact rewriteEsbuild_ok (acornParse_generate p (acornParse_wf hp))

theorem C7_normalize_idempotent_witness :
    rewriteEsbuild "f( a,b ) ;" = .ok "f(a, b);" ∧
    rewriteEsbuild "f(a, b);" = .ok "f(a, b);" :=
  ⟨rfl, C7_normalize_idempotent "f( a,b ) ;" "f(a, b);" rfl⟩

/-- C8: on a parse failure both entry points propagate the very
`ParseError` unmodified and return no partial result; on a successful
parse both entry points totally return a string. -/
theorem C8_error_propagation :
    (∀ (x : String) (e : ParseError), acornParse x = .error e →
      rewriteRolldown x = .error e ∧ rewriteEsbuild x = .error e) ∧
    (∀ (x : String) (p : Program), acornParse x = .ok p →
      (∃ s, rewriteRolldown x = .ok s) ∧ ∃ s, rewriteEsbuild x = .ok s) := by
  constructor
  · intro x e h
    constructor
    · show (acornParse x >>= fun ast =>
        pure (normalizeGenerated (generate (walkProgram ast)))) = _
      rw [h]
      rfl
    · show (acornParse x >>= fun ast => pure (generate ast)) = _
      rw [h]
      rfl
  · intro x p h
    exact ⟨⟨_, rewriteRolldown_ok h⟩, ⟨_, rewriteEsbuild_ok h⟩⟩

theorem C8_error_propagation_witness :
    (acornParse "(" = .error ⟨"parse: expected expression"⟩ ∧
      rewriteRolldown "(" = .error ⟨"parse: expected expression"⟩ ∧
      rewriteEsbuild "(" = .error ⟨"parse: expected expression"⟩) ∧
    ((∃ s, rewriteRolldown "f();" = .ok s) ∧ ∃ s, rewriteEsbuild "f();" = .ok s) :=
  ⟨⟨rfl, (C8_error_propagation.1 "(" ⟨"parse: expected expression"⟩ rfl).1,
    (C8_error_propagation.1 "(" ⟨"parse: expected expression"⟩ rfl).2⟩,
   C8_error_propagation.2 "f();" [.exprStmt (.call (.ident "f") .nil) none] rfl⟩

/-- C9: the tree rewriter never fails on any node shape: a call whose
callee is not a member access, or whose member object or property has no
identifier name, is left unchanged by the `CallExpression` rule, and the
other two rules are no-ops on their non-matching nodes. -/
theorem C9_tolerates_shapes :
    (∀ (c : Expr) (args : ExprList), isMemberExpr c = false →
      callExpressionRule (.call c args) = .call c args) ∧
    (∀ (obj prop : Expr) (computed : Bool) (args : ExprList), exprName? obj = none →
      callExpressionRule (.call (.member obj prop computed) args) =
        .call (.member obj prop computed) args) ∧
    (∀ (obj prop : Expr) (computed : Bool) (args : ExprList), exprName? prop = none →
      callExpressionRule (.call (.member obj prop computed) args) =
        .call (.member obj prop computed) args) ∧
    (∀ (l src : String), importSourceList.contains src = false →
      importDeclarationRule (.importDecl l src) = .importDecl l src) ∧
    (∀ (e : Expr) (d : Option String), d ≠ some "use strict" →
      expressionStatementRule (.exprStmt e d) = .exprStmt e d) := by
  refine ⟨?_, ?_, ?_, ?_, ?_⟩
  · intro c args h
    cases c with
    | member o p cm => exact Bool.noConfusion h
    | ident n => rfl
    | lit v => rfl
    | call f a => rfl
  · intro obj prop computed args h
    rw [callExpressionRule_red, if_neg (by
      intro hcond
      rw [Bool.and_eq_true] at hcond
      have h2 := hcond.1
      rw [h] at h2
      exact Bool.noConfusion h2)]
  · intro obj prop computed args h
    rw [callExpressionRule_red, if_neg (by
      intro hcond
      rw [Bool.and_eq_true] at hcond
      have h2 := hcond.2
      rw [h] at h2
      exact Bool.noConfusion h2)]
  · intro l src h
    have hred : importDeclarationRule (.importDecl l src) =
        (if importSourceList.contains src then .emptyStmt else .importDecl l src) := rfl
    rw [hred, if_neg (by
      intro hcc
      rw [h] at hcc
      exact Bool.noConfusion hcc)]
  · intro e d h
    have hred : expressionStatementRule (.exprStmt e d) =
        (if d = some "use strict" then .emptyStmt else .exprStmt e d) := rfl
    rw [hred, if_neg h]

theorem C9_tolerates_shapes_witness :
    (callExpressionRule (.call (.ident "f") (.cons (.ident "x") .nil)) =
      .call (.ident "f") (.cons (.ident "x") .nil)) ∧
    (callExpressionRule
        (.call (.member (.call (.ident "g") .nil) (.ident "equal") false)
          (.cons (.ident "x") (.cons (.ident "y") .nil))) =
      .call (.member (.call (.ident "g") .nil) (.ident "equal") false)
        (.cons (.ident "x") (.cons (.ident "y") .nil))) ∧
    (callExpressionRule
        (.call (.member (.ident "assert") (.lit (.str "equal")) true)
          (.cons (.ident "x") (.cons (.ident "y") .nil))) =
      .call (.member (.ident "assert") (.lit (.str "equal")) true)
        (.cons (.ident "x") (.cons (.ident "y") .nil))) :=
  ⟨C9_tolerates_shapes.1 (.ident "f") _ rfl,
   C9_tolerates_shapes.2.1 (.call (.ident "g") .nil) (.ident "equal") false _ rfl,
   C9_tolerates_shapes.2.2.1 (.ident "assert") (.lit (.str "equal")) true _ rfl⟩

/-- C10: the assertion rewrite is purely syntactic: it fires on a
matching `assert.<m>` call inside a program that contains no import at
all, and it never fires on a call through any identifier other than
`assert`. -/
theorem C10_syntactic_rewrite :
    (∀ (m : String) (a b : Expr), m ∈ assertProperties →
      walkExpr a = a → walkExpr b = b →
      walkProgram
          [.exprStmt (.call (.member (.ident "assert") (.ident m) false)
            (.cons a (.cons b .nil))) none] =
        [.exprStmt (.call (.member (.ident "console") (.ident "log") false)
          (.cons a .nil)) none]) ∧
    (∀ (name m : String) (computed : Bool) (args : ExprList), name ≠ "assert" →
      callExpressionRule (.call (.member (.ident name) (.ident m) computed) args) =
        .call (.member (.ident name) (.ident m) computed) args) := by
  constructor
  · intro m a b hm ha hb
    show [expressionStatementRule (.exprStmt
      (callExpressionRule (.call (.member (.ident "assert") (.ident m) false)
        (.cons (walkExpr a) (.cons (walkExpr b) .nil)))) none)] = _
    rw [ha, hb]
    fin_cases hm <;> rfl
  · intro name m computed args h
    rw [callExpressionRule_red, if_neg (by
      intro hcond
      rw [Bool.and_eq_true] at hcond
      have h2 : ((some name : Option String) == some "assert") = true := hcond.1
      have h3 : name = "assert" := by simpa using h2
      exact h h3)]

theorem C10_syntactic_rewrite_witness :
    (walkProgram
        [.exprStmt (.call (.member (.ident "assert") (.ident "equal") false)
          (.cons (.ident "x") (.cons (.lit (.num "1")) .nil))) none] =
      [.exprStmt (.call (.member (.ident "console") (.ident "log") false)
        (.cons (.ident "x") .nil)) none]) ∧
    (callExpressionRule
        (.call (.member (.ident "myAssert") (.ident "equal") false)
          (.cons (.ident "x") (.cons (.lit (.num "1")) .nil))) =
      .call (.member (.ident "myAssert") (.ident "equal") false)
        (.cons (.ident "x") (.cons (.lit (.num "1")) .nil))) :=
  ⟨C10_syntactic_rewrite.1 "equal" (.ident "x") (.lit (.num "1")) (by decide) rfl rfl,
   C10_syntactic_rewrite.2 "myAssert" "equal" false _ (by decide)⟩

/-- C2 counterexample: the generated text consisting of the single line
two-spaces-then-semicolon trims to exactly `;`, yet the Output
Normalizer keeps it unchanged instead of removing it as the claim
demands. -/
theorem C2_counterexample_trimmed_kept :
    trimChars ("  ;").data = (";").data ∧
    normalizeGenerated "  ;" = "  ;" ∧ ("  ;" : String) ≠ "" :=
  ⟨by decide, rfl, by decide⟩

/-- C2 (amended): the Output Normalizer removes exactly the lines that
are literally `;` with no surrounding whitespace, preserves every other
line verbatim (an indented `;` line included) in the original order, and
rejoins with newline separators. -/
theorem C2_line_filter (ls : List String) (hnl : ∀ l ∈ ls, ∀ c ∈ l.data, c ≠ '\n')
    (hne : ls ≠ []) :
    normalizeGenerated (joinLines ls) = joinLines (ls.filter (fun l => l ≠ ";")) := by
  show joinLines ((splitLines (joinLines ls)).filter fun l => l ≠ ";") = _
  rw [splitLines_joinLines ls hne hnl]

theorem C2_line_filter_witness :
    normalizeGenerated (joinLines ["foo;", ";", "  ;", "", "bar;"]) =
      joinLines (["foo;", ";", "  ;", "", "bar;"].filter (fun l => l ≠ ";")) :=
  C2_line_filter ["foo;", ";", "  ;", "", "bar;"] (by decide) (by decide)

end SnapDiff
